import Mathlib

/-!
Verification development for the myvmk-highscores repository.

The definitions below are a shallow embedding of the JavaScript source:

* `src/scripts/scraper.js` — the all-time merge engine (`updateAllTimeScores`);
* `src/js/app.js` — snapshot aggregation (`aggregateScores`), avatar
  resolution (`findAvatarForUser`), and the month date range
  (`getCurrentMonthDates` / `getScoresForPeriod`);
* the user-index seeding script (`seedUsersIndex`).

Modelling conventions:

* JavaScript `Map` objects (insertion-ordered, string-keyed) are modelled as
  lists of values carrying their own key, with `setByKey` replacing the first
  entry of the same key in place (the position of an existing key is kept,
  a fresh key is appended) — exactly the ECMAScript `Map.set` semantics.
  `new Map(list)` with duplicate keys keeps the first position and the last
  value, which is exactly `List.foldl setByKey []`.
* `Array.prototype.sort` with comparator `(a, b) => b.score - a.score` is a
  stable descending sort by score (ECMAScript requires sort stability); it is
  modelled by the stable insertion sort `sortByScoreDesc`.
* Scores are parsed by `parseInt` from `\d+` digits, hence natural numbers.
* Dates are `"YYYY-MM-DD"` strings; JavaScript compares them with the usual
  lexicographic string order, which on ASCII agrees with Lean's `String` order.
* `null`/absent avatar filenames are `Option String` (`extractAvatarFilename`
  never produces the empty string, so JS truthiness of an avatar value is
  exactly `Option.isSome`); the JS fallback `a || b` is `Option.orElse`.
-/

/-- A score entry as parsed from the page: `{rank, username, score}`
(`parseScores` in scraper.js). -/
structure ScoreEntry where
  rank : Nat
  username : String
  score : Nat
deriving Repr, DecidableEq

/-- An all-time score entry with provenance: `{rank, username, score,
achievedOn}` (entries of `all-time.json`). -/
structure ATEntry where
  rank : Nat
  username : String
  score : Nat
  achievedOn : String
deriving Repr, DecidableEq

/-- One period block of a scraped game: `{topAvatar, scores}`. -/
structure PeriodBlock where
  topAvatar : Option String
  scores : List ScoreEntry
deriving Repr, DecidableEq

/-- One game of a freshly scraped day, as passed to `updateAllTimeScores`
(`parseGameSection` always materialises all three blocks). -/
structure GameDay where
  name : String
  today : PeriodBlock
  yesterday : PeriodBlock
  highscores : PeriodBlock
deriving Repr, DecidableEq

/-- One game of the persisted all-time record: `{name, topAvatar, scores}`. -/
structure ATGame where
  name : String
  topAvatar : Option String
  scores : List ATEntry
deriving Repr, DecidableEq

/-- The all-time record `{lastUpdated, games}`; `games` is an insertion-ordered
string-keyed mapping, modelled as an association list. -/
structure AllTime where
  lastUpdated : String
  games : List (String × ATGame)
deriving Repr, DecidableEq

section KeyedList

variable {α : Type} (key : α → String)

/-- ECMAScript `Map.set` / object property write on an insertion-ordered,
string-keyed collection modelled as a list of values: replace the first entry
with the same key in place, or append when the key is fresh. -/
def setByKey (v : α) : List α → List α
  | [] => [v]
  | x :: xs => if key x = key v then v :: xs else x :: setByKey v xs

/-- ECMAScript `Map.get` / object property read: the first entry with the
given key. -/
def getByKey (l : List α) (u : String) : Option α :=
  l.find? (fun x => key x = u)

/-- The keys of the collection, in insertion order. -/
def keysOf (l : List α) : List String :=
  l.map key

theorem setByKey_of_not_mem {v : α} {l : List α} (h : key v ∉ keysOf key l) :
    setByKey key v l = l ++ [v] := by
  induction l with
  | nil => rfl
  | cons x xs ih =>
    simp only [keysOf, List.map_cons, List.mem_cons] at h
    push_neg at h
    have hx : ¬ (key x = key v) := fun hh => h.1 hh.symm
    rw [setByKey, if_neg hx, List.cons_append, ih h.2]

theorem getByKey_eq_none_iff {l : List α} {u : String} :
    getByKey key l u = none ↔ u ∉ keysOf key l := by
  rw [getByKey, List.find?_eq_none]
  constructor
  · intro h hm
    rcases List.mem_map.mp hm with ⟨x, hx, hk⟩
    have := h x hx
    simp only [decide_eq_true_eq] at this
    exact this hk
  · intro h x hx
    simp only [decide_eq_true_eq]
    intro hk
    exact h (List.mem_map.mpr ⟨x, hx, hk⟩)

theorem keysOf_setByKey_of_mem {v : α} {l : List α} (h : key v ∈ keysOf key l) :
    keysOf key (setByKey key v l) = keysOf key l := by
  induction l with
  | nil => simp [keysOf] at h
  | cons x xs ih =>
    by_cases hx : key x = key v
    · simp [setByKey, hx, keysOf]
    · simp only [keysOf, List.map_cons, List.mem_cons] at h
      rcases h with h | h
      · exact absurd h.symm hx
      · have ih2 := ih (by simpa [keysOf] using h)
        simp only [setByKey, if_neg hx, keysOf, List.map_cons]
        simpa [keysOf] using ih2

theorem getByKey_setByKey_self {v : α} {l : List α} :
    getByKey key (setByKey key v l) (key v) = some v := by
  induction l with
  | nil =>
    simp [setByKey, getByKey, List.find?_cons_of_pos]
  | cons x xs ih =>
    by_cases hx : key x = key v
    · rw [setByKey, if_pos hx, getByKey,
        List.find?_cons_of_pos _ (by simp)]
    · rw [setByKey, if_neg hx, getByKey,
        List.find?_cons_of_neg _ (by simp [hx])]
      exact ih

theorem getByKey_setByKey_ne {v : α} {l : List α} {u : String} (h : u ≠ key v) :
    getByKey key (setByKey key v l) u = getByKey key l u := by
  have hvu : ¬ (key v = u) := fun hh => h hh.symm
  induction l with
  | nil =>
    rw [setByKey, getByKey, List.find?_cons_of_neg _ (by simp [hvu])]
    rfl
  | cons x xs ih =>
    by_cases hx : key x = key v
    · have hxu : ¬ (key x = u) := fun hh => hvu (hx ▸ hh)
      rw [setByKey, if_pos hx, getByKey,
        List.find?_cons_of_neg _ (by simp [hvu]), getByKey,
        List.find?_cons_of_neg _ (by simp [hxu])]
    · by_cases hxu : key x = u
      · rw [setByKey, if_neg hx, getByKey,
          List.find?_cons_of_pos _ (by simp [hxu]), getByKey,
          List.find?_cons_of_pos _ (by simp [hxu])]
      · rw [setByKey, if_neg hx, getByKey,
          List.find?_cons_of_neg _ (by simp [hxu]), getByKey,
          List.find?_cons_of_neg _ (by simp [hxu])]
        exact ih

theorem nodup_keys_setByKey {v : α} {l : List α}
    (h : (keysOf key l).Nodup) : (keysOf key (setByKey key v l)).Nodup := by
  by_cases hm : key v ∈ keysOf key l
  · rw [keysOf_setByKey_of_mem key hm]; exact h
  · rw [setByKey_of_not_mem key hm]
    have : keysOf key (l ++ [v]) = keysOf key l ++ [key v] := by
      simp [keysOf]
    rw [this, List.nodup_append]
    refine ⟨h, List.nodup_singleton _, ?_⟩
    intro a ha hb
    rcases List.mem_singleton.mp hb with rfl
    exact hm ha

theorem mem_setByKey_of_mem {v w : α} {l : List α}
    (hw : w ∈ l) (hk : key w ≠ key v) : w ∈ setByKey key v l := by
  induction l with
  | nil => cases hw
  | cons x xs ih =>
    rcases List.mem_cons.mp hw with rfl | hw2
    · rw [setByKey, if_neg hk]
      exact List.mem_cons_self _ _
    · by_cases hx : key x = key v
      · rw [setByKey, if_pos hx]
        exact List.mem_cons_of_mem _ hw2
      · rw [setByKey, if_neg hx]
        exact List.mem_cons_of_mem _ (ih hw2)

theorem setByKey_eq_self {v : α} {l : List α}
    (h : getByKey key l (key v) = some v) : setByKey key v l = l := by
  induction l with
  | nil => simp [getByKey, List.find?] at h
  | cons x xs ih =>
    by_cases hx : key x = key v
    · rw [getByKey, List.find?_cons_of_pos _ (by simp [hx])] at h
      injection h with h
      rw [setByKey, if_pos hx, h]
    · rw [getByKey, List.find?_cons_of_neg _ (by simp [hx])] at h
      rw [setByKey, if_neg hx, ih h]

/-- `new Map(l.map (fun x => (key x, x)))`: fold of `Map.set` from empty. -/
def buildMap (l : List α) : List α :=
  l.foldl (fun acc x => setByKey key x acc) []

theorem foldl_setByKey_eq_append {l : List α} : ∀ {acc : List α},
    (keysOf key (acc ++ l)).Nodup →
    l.foldl (fun acc x => setByKey key x acc) acc = acc ++ l := by
  induction l with
  | nil => intro acc _; simp
  | cons x xs ih =>
    intro acc h
    have hsplit : (keysOf key acc ++ keysOf key (x :: xs)).Nodup := by
      simpa [keysOf] using h
    rw [List.nodup_append] at hsplit
    have hnotm : key x ∉ keysOf key acc := by
      intro hm
      exact hsplit.2.2 hm (by simp [keysOf])
    rw [List.foldl_cons, setByKey_of_not_mem key hnotm]
    have h2 : (keysOf key ((acc ++ [x]) ++ xs)).Nodup := by
      simp only [keysOf, List.map_append] at h ⊢
      simpa using h
    rw [ih h2]
    simp

theorem buildMap_eq_self {l : List α} (h : (keysOf key l).Nodup) :
    buildMap key l = l := by
  have h2 : (keysOf key (([] : List α) ++ l)).Nodup := by
    simpa [keysOf] using h
  have := foldl_setByKey_eq_append key h2
  simpa [buildMap] using this

theorem getByKey_some_key {l : List α} {u : String} {v : α}
    (h : getByKey key l u = some v) : key v = u := by
  have := List.find?_some h
  simpa using this

theorem getByKey_some_mem {l : List α} {u : String} {v : α}
    (h : getByKey key l u = some v) : v ∈ l :=
  List.mem_of_find?_eq_some h

theorem getByKey_eq_some_of_mem_nodup {l : List α} {v : α}
    (hnd : (keysOf key l).Nodup) (hv : v ∈ l) :
    getByKey key l (key v) = some v := by
  induction l with
  | nil => cases hv
  | cons x xs ih =>
    rcases List.mem_cons.mp hv with rfl | hv2
    · simp [getByKey, List.find?_cons]
    · have hx : key x ≠ key v := by
        simp only [keysOf, List.map_cons, List.nodup_cons] at hnd
        intro hh
        exact hnd.1 (hh ▸ List.mem_map.mpr ⟨v, hv2, rfl⟩)
      have hnd2 : (keysOf key xs).Nodup := by
        simp only [keysOf, List.map_cons, List.nodup_cons] at hnd
        exact hnd.2
      simp only [getByKey, List.find?_cons, hx]
      simpa [hx, getByKey] using ih hnd2 hv2

end KeyedList

section StableSort

variable {α : Type} (sc : α → Nat)

/-- Insert an element into a list sorted non-increasingly by `sc`, placing it
before the first element of score less than or equal to its own.  Since the
inserted element originates earlier in the input than the list elements, this
realises a stable descending sort step. -/
def insertDesc (e : α) : List α → List α
  | [] => [e]
  | y :: ys => if sc y ≤ sc e then e :: y :: ys else y :: insertDesc e ys

/-- Stable sort, descending by `sc`: the model of ECMAScript
`Array.prototype.sort((a, b) => sc b - sc a)` (ECMAScript sorts are stable). -/
def sortByScoreDesc : List α → List α
  | [] => []
  | x :: xs => insertDesc sc x (sortByScoreDesc xs)

theorem insertDesc_perm (e : α) (l : List α) :
    List.Perm (insertDesc sc e l) (e :: l) := by
  induction l with
  | nil => exact List.Perm.refl _
  | cons y ys ih =>
    by_cases h : sc y ≤ sc e
    · rw [insertDesc, if_pos h]
    · rw [insertDesc, if_neg h]
      exact List.Perm.trans (ih.cons y) (List.Perm.swap _ _ _)

theorem sortByScoreDesc_perm (l : List α) :
    List.Perm (sortByScoreDesc sc l) l := by
  induction l with
  | nil => exact List.Perm.refl _
  | cons x xs ih =>
    exact List.Perm.trans (insertDesc_perm sc x _) (ih.cons x)

/-- Non-increasing by score. -/
def SortedDesc (l : List α) : Prop :=
  l.Pairwise (fun a b => sc b ≤ sc a)

theorem sortedDesc_insertDesc {e : α} {l : List α} (h : SortedDesc sc l) :
    SortedDesc sc (insertDesc sc e l) := by
  induction l with
  | nil => simp [insertDesc, SortedDesc]
  | cons y ys ih =>
    rcases List.pairwise_cons.mp h with ⟨hy, hys⟩
    by_cases hle : sc y ≤ sc e
    · rw [insertDesc, if_pos hle]
      refine List.pairwise_cons.mpr ⟨?_, h⟩
      intro b hb
      rcases List.mem_cons.mp hb with rfl | hb2
      · exact hle
      · exact le_trans (hy b hb2) hle
    · rw [insertDesc, if_neg hle]
      refine List.pairwise_cons.mpr ⟨?_, ih hys⟩
      intro b hb
      have hb3 := (insertDesc_perm sc e ys).mem_iff.mp hb
      rcases List.mem_cons.mp hb3 with rfl | hb4
      · exact le_of_not_le hle
      · exact hy b hb4

theorem sortedDesc_sortByScoreDesc (l : List α) :
    SortedDesc sc (sortByScoreDesc sc l) := by
  induction l with
  | nil => simp [sortByScoreDesc, SortedDesc]
  | cons x xs ih => exact sortedDesc_insertDesc sc ih

theorem insertDesc_front {e : α} {l : List α}
    (h : ∀ y, l.head? = some y → sc y ≤ sc e) : insertDesc sc e l = e :: l := by
  cases l with
  | nil => rfl
  | cons y ys =>
    rw [insertDesc, if_pos (h y rfl)]

theorem sortByScoreDesc_eq_self {l : List α} (h : SortedDesc sc l) :
    sortByScoreDesc sc l = l := by
  induction l with
  | nil => rfl
  | cons x xs ih =>
    rcases List.pairwise_cons.mp h with ⟨hx, hxs⟩
    rw [sortByScoreDesc, ih hxs]
    cases xs with
    | nil => rfl
    | cons y ys =>
      refine insertDesc_front sc ?_
      intro z hz
      injection hz with hz
      exact hz ▸ hx y (List.mem_cons_self _ _)

theorem sortByScoreDesc_append {kept extras : List α}
    (hs : SortedDesc sc kept)
    (hle : ∀ k ∈ kept, ∀ x ∈ extras, sc x ≤ sc k) :
    sortByScoreDesc sc (kept ++ extras) =
      kept ++ sortByScoreDesc sc extras := by
  induction kept with
  | nil => simp
  | cons k ks ih =>
    rcases List.pairwise_cons.mp hs with ⟨hk, hks⟩
    rw [List.cons_append, sortByScoreDesc,
      ih hks (fun a ha x hx => hle a (List.mem_cons_of_mem _ ha) x hx)]
    refine insertDesc_front sc ?_
    intro z hz
    cases ks with
    | cons b bs =>
      injection hz with hz
      exact hz ▸ hk b (List.mem_cons_self _ _)
    | nil =>
      simp only [List.nil_append] at hz
      have hzmem : z ∈ extras :=
        (sortByScoreDesc_perm sc extras).mem_iff.mp (List.mem_of_mem_head? hz)
      exact hle k (List.mem_cons_self _ _) z hzmem

end StableSort

/-! ## The all-time merge engine (`updateAllTimeScores`, scraper.js 208-281) -/

/-- `{...newScore, achievedOn: date}`: an incoming entry stamped with the
ingestion date (the spread keeps the entry's scraped rank field). -/
def stampDate (c : ScoreEntry) (date : String) : ATEntry :=
  ⟨c.rank, c.username, c.score, date⟩

/-- `existingScoreMap.get(username)` — the username-keyed score map. -/
def getUser (l : List ATEntry) (u : String) : Option ATEntry :=
  getByKey ATEntry.username l u

/-- The body of the two candidate loops in `updateAllTimeScores`
(scraper.js 242-261): insert the candidate when its username is absent, or
replace the stored entry (in place) when the candidate score is strictly
greater; otherwise leave the map untouched. -/
def applyCandidate (date : String) (l : List ATEntry) (c : ScoreEntry) :
    List ATEntry :=
  match getUser l c.username with
  | none => setByKey ATEntry.username (stampDate c date) l
  | some ex =>
      if ex.score < c.score then setByKey ATEntry.username (stampDate c date) l
      else l

/-- `new Map(existing.scores.map(s => [s.username, s]))` followed by the two
candidate loops (`highscores` first, then `today`). -/
def mergeScores (existing : List ATEntry) (hs today : List ScoreEntry)
    (date : String) : List ATEntry :=
  (hs ++ today).foldl (applyCandidate date) (buildMap ATEntry.username existing)

/-- `sortedScores.forEach((s, i) => s.rank = i + 1)`: reassign ranks `n`,
`n+1`, ... positionally. -/
def reRankFrom (n : Nat) : List ATEntry → List ATEntry
  | [] => []
  | e :: es => { e with rank := n } :: reRankFrom (n + 1) es

/-- Re-rank from 1. -/
def reRank (l : List ATEntry) : List ATEntry :=
  reRankFrom 1 l

/-- Sort descending by score (stable), keep the top 50, re-rank
(scraper.js 263-269). -/
def sortTruncRank (l : List ATEntry) : List ATEntry :=
  reRank ((sortByScoreDesc ATEntry.score l).take 50)

/-- `sortedScores[0]?.achievedOn === date` (an absent head compares unequal). -/
def headAchievedToday (l : List ATEntry) (date : String) : Bool :=
  match l.head? with
  | some e => e.achievedOn = date
  | none => false

/-- The merge path of `updateAllTimeScores` for one game that already exists in
the all-time record (scraper.js 238-274): merge the `highscores` and `today`
candidates, sort/truncate/re-rank, and update `topAvatar` only when the new #1
entry was achieved on the ingestion date. -/
def mergeGame (g : ATGame) (d : GameDay) (date : String) : ATGame :=
  let sorted := sortTruncRank (mergeScores g.scores d.highscores.scores
    d.today.scores date)
  { name := g.name
    topAvatar :=
      if headAchievedToday sorted date then
        (d.today.topAvatar.orElse fun _ =>
          d.highscores.topAvatar.orElse fun _ => g.topAvatar)
      else g.topAvatar
    scores := sorted }

/-- The cold-start path of `updateAllTimeScores` for a game not yet in the
record (scraper.js 225-236): seed directly from the incoming `highscores`
block, stamping `achievedOn = date`; no sort, truncation or re-ranking. -/
def seedGame (d : GameDay) (date : String) : ATGame :=
  { name := d.name
    topAvatar := d.highscores.topAvatar
    scores := d.highscores.scores.map (fun s => stampDate s date) }

/-- One iteration of the per-game loop of `updateAllTimeScores`: the
`!allTime.games[gameId]` test selects seeding or merging, and the result is
written back to `allTime.games[gameId]`. -/
def mergeGameStep (date : String) (acc : List (String × ATGame))
    (kv : String × GameDay) : List (String × ATGame) :=
  match getByKey Prod.fst acc kv.1 with
  | none => setByKey Prod.fst (kv.1, seedGame kv.2 date) acc
  | some g => setByKey Prod.fst (kv.1, mergeGame g.2 kv.2 date) acc

/-- The per-game loop of `updateAllTimeScores` over `Object.entries(games)`. -/
def mergeAllGames (gs : List (String × ATGame))
    (incoming : List (String × GameDay)) (date : String) :
    List (String × ATGame) :=
  incoming.foldl (mergeGameStep date) gs

/-- One whole run of the merge over an already-loaded record, including the
unconditional `lastUpdated = date`. -/
def updateAllTime (r : AllTime) (incoming : List (String × GameDay))
    (date : String) : AllTime :=
  ⟨date, mergeAllGames r.games incoming date⟩

/-- The outcome of reading and parsing `all-time.json` at the top of
`updateAllTimeScores`: either the read/parse threw (missing file or invalid
JSON, caught and replaced by the fresh record), or it parsed into an object
whose `games` property may be missing. -/
inductive PersistedAllTime : Type
  | readError : PersistedAllTime
  | parsed (lastUpdated : String) (gamesField : Option (List (String × ATGame))) :
      PersistedAllTime
deriving Repr, DecidableEq

/-- The full `updateAllTimeScores`, including its error behaviour: when the
persisted record parsed but has no `games` mapping, the first iteration of the
game loop evaluates `allTime.games[gameId]` on `undefined` and throws a
TypeError (modelled as `Except.error ()`), which `main` treats as a fatal
scrape failure; with no incoming games the loop body never runs and no error
occurs. -/
def updateAllTimeScores (persisted : PersistedAllTime)
    (incoming : List (String × GameDay)) (date : String) :
    Except Unit (String × Option (List (String × ATGame))) :=
  match persisted with
  | .readError => .ok (date, some (mergeAllGames [] incoming date))
  | .parsed _ none =>
      if incoming.isEmpty then .ok (date, none) else .error ()
  | .parsed _ (some gs) => .ok (date, some (mergeAllGames gs incoming date))

/-! ## Snapshot aggregation and queries (app.js) -/

/-- The three period names used by the dashboard. -/
inductive Period : Type
  | today : Period
  | yesterday : Period
  | highscores : Period
deriving Repr, DecidableEq

/-- One game inside a persisted daily snapshot; any of the period blocks may
be missing in a partial file (`gameData[period]?`). -/
structure GameSnap where
  today : Option PeriodBlock
  yesterday : Option PeriodBlock
  highscores : Option PeriodBlock
deriving Repr, DecidableEq

/-- `gameData[period]` — dynamic access by period name. -/
def GameSnap.block (gd : GameSnap) : Period → Option PeriodBlock
  | .today => gd.today
  | .yesterday => gd.yesterday
  | .highscores => gd.highscores

/-- A daily snapshot file: `{date, games}`. -/
structure Snapshot where
  date : String
  games : List (String × GameSnap)
deriving Repr, DecidableEq

/-- A per-user best tracked by `aggregateScores`: `{username, score, date}`. -/
structure AggEntry where
  username : String
  score : Nat
  date : String
deriving Repr, DecidableEq

/-- `gameData[scoreType]?.scores || gameData.yesterday?.scores || []`
(app.js 206): the requested block's scores, falling back to the `yesterday`
block only when the requested block is missing (an empty array is truthy). -/
def sourceScores (gd : GameSnap) (p : Period) : List ScoreEntry :=
  match gd.block p with
  | some pb => pb.scores
  | none =>
      match gd.yesterday with
      | some pb => pb.scores
      | none => []

/-- The body of the entry loop of `aggregateScores` (app.js 207-216): record
the entry as the user's best iff the username is new or the score is strictly
greater; the stored date is the day that set the best. -/
def aggStep (date : String) (m : List AggEntry) (e : ScoreEntry) :
    List AggEntry :=
  match getByKey AggEntry.username m e.username with
  | none => setByKey AggEntry.username ⟨e.username, e.score, date⟩ m
  | some ex =>
      if ex.score < e.score then
        setByKey AggEntry.username ⟨e.username, e.score, date⟩ m
      else m

/-- One day of the `userBestScores` fold of `aggregateScores`: skip the day
when it lacks the game, else fold its selected score source. -/
def aggDayStep (gameId : String) (p : Period) (m : List AggEntry)
    (day : Snapshot) : List AggEntry :=
  match getByKey Prod.fst day.games gameId with
  | none => m
  | some kv => (sourceScores kv.2 p).foldl (aggStep day.date) m

/-- The `userBestScores` map of `aggregateScores` for one game: fold the
selected score source of every supplied day (missing games skipped). -/
def aggBest (days : List Snapshot) (gameId : String) (p : Period) :
    List AggEntry :=
  days.foldl (aggDayStep gameId p) []

/-- `.map((entry, index) => ({rank: index+1, username, score}))`: the emitted
top list drops the tracked date and re-derives contiguous 1-based ranks. -/
def rankify : Nat → List AggEntry → List ScoreEntry
  | _, [] => []
  | n, a :: rest => ⟨n, a.username, a.score⟩ :: rankify (n + 1) rest

/-- The per-game output list of `aggregateScores` (app.js 219-227): sort the
per-user bests descending by score (stable), keep the top 10, rank 1-based. -/
def aggregateGame (days : List Snapshot) (gameId : String) (p : Period) :
    List ScoreEntry :=
  rankify 1 ((sortByScoreDesc AggEntry.score (aggBest days gameId p)).take 10)

/-- The period priority lists of `findAvatarForUser` (app.js 244-246). -/
def periodsFor (prioritizeHighscores : Bool) : List Period :=
  if prioritizeHighscores then [.highscores, .yesterday, .today]
  else [.yesterday, .today, .highscores]

/-- `gameData[period]?.scores?.[0]?.username string` of one block, when all of
the chain exists. -/
def blockHeadUser (gd : GameSnap) (p : Period) : Option String :=
  match gd.block p with
  | none => none
  | some pb => pb.scores.head?.map ScoreEntry.username

/-- The inner period loop of `findAvatarForUser`: the first period in the
priority list whose first entry's username equals `u` (case-sensitive exact
string comparison) yields that block's `topAvatar` (which may itself be null);
`none` means no period of this snapshot matched. -/
def findInPeriods (gd : GameSnap) (u : String) :
    List Period → Option (Option String)
  | [] => none
  | p :: ps =>
      if blockHeadUser gd p = some u then
        some ((gd.block p).bind PeriodBlock.topAvatar)
      else findInPeriods gd u ps

/-- `findAvatarForUser` (app.js 242-259): scan the supplied snapshots in
order, skipping snapshots without the game, and return the matched block's
`topAvatar` of the first snapshot with a matching period; `none` after the
scan is exhausted. -/
def findAvatarForUser :
    List Snapshot → String → String → Bool → Option String
  | [], _, _, _ => none
  | day :: rest, gameId, u, ph =>
      match getByKey Prod.fst day.games gameId with
      | none => findAvatarForUser rest gameId u ph
      | some kv =>
          match findInPeriods kv.2 u (periodsFor ph) with
          | some av => av
          | none => findAvatarForUser rest gameId u ph

/-- One game's result of `aggregateScores` including its avatar (app.js
229-232); `sorted[0]?.username ?` is JS truthiness, so an empty username also
yields null. -/
def aggregateScoresGame (days : List Snapshot) (gameId : String) (p : Period) :
    List ScoreEntry × Option String :=
  let sorted := aggregateGame days gameId p
  (sorted,
    match sorted.head? with
    | some e =>
        if e.username = "" then none
        else findAvatarForUser days gameId e.username false
    | none => none)

/-- JavaScript `<` on strings: lexicographic comparison of the code units
(identical to code-point order for the ASCII date strings involved here). -/
def charListLt : List Char → List Char → Bool
  | [], [] => false
  | [], _ :: _ => true
  | _ :: _, [] => false
  | a :: as, b :: bs =>
      if a < b then true else if b < a then false else charListLt as bs

/-- JavaScript `a < b` on strings. -/
def jsStrLt (a b : String) : Bool :=
  charListLt a.data b.data

/-- JavaScript `a <= b` on strings (the negation of `b < a` for a total
order). -/
def jsStrLe (a b : String) : Bool :=
  ! jsStrLt b a

/-- `String(day).padStart(2, "0")`. -/
def padDay (d : Nat) : String :=
  if d < 10 then "0" ++ toString d else toString d

/-- The date string built by `getCurrentMonthDates`. -/
def dateStrYMD (y m : String) (d : Nat) : String :=
  y ++ "-" ++ m ++ "-" ++ padDay d

/-- `getCurrentMonthDates` (app.js 85-107): `y`/`m` are the Pacific year and
zero-padded month of the reference date, `refDay` its day-of-month, and
`daysInMonth` the month length; the loop emits every day string of the month
that compares `<=` to the reference date string. -/
def getCurrentMonthDates (y m : String) (refDay daysInMonth : Nat) :
    List String :=
  (((List.range daysInMonth).map (fun d => d + 1)).filter
    (fun d => jsStrLe (dateStrYMD y m d) (dateStrYMD y m refDay))).map
    (dateStrYMD y m)

/-- `loadMultipleDays` (app.js 188-191): fetch each date and drop the missing
ones; the store maps a date string to its snapshot file, if any. -/
def loadMultipleDays (store : String → Option Snapshot) (dates : List String) :
    List Snapshot :=
  dates.filterMap store

/-- The `month` case of `getScoresForPeriod` (app.js 327-332), restricted to
one game: aggregate the loaded month dates with the `yesterday` score source,
returning null when no snapshot of the range exists. -/
def monthScores (store : String → Option Snapshot) (y m : String)
    (refDay daysInMonth : Nat) (gameId : String) :
    Option (List ScoreEntry × Option String) :=
  let dailyData := loadMultipleDays store (getCurrentMonthDates y m refDay daysInMonth)
  if dailyData.isEmpty then none
  else some (aggregateScoresGame dailyData gameId Period.yesterday)

/-! ## The user-index seeding script (`seedUsersIndex`) -/

/-- A `lastAppearance` value: `{game, rank, date}`. -/
structure Appearance where
  game : String
  rank : Nat
  date : String
deriving Repr, DecidableEq

/-- The `lastSeen`/`lastAppearance` part of one user record. -/
structure UserSeen where
  lastSeen : Option String
  lastAppearance : Option Appearance
deriving Repr, DecidableEq

/-- `user.lastAppearance?.rank || 999`: 999 when `lastAppearance` is absent
(or, by JS falsiness, when its rank is 0 — the script itself only ever stores
ranks of at least 1). -/
def storedAppearanceRank (la : Option Appearance) : Nat :=
  match la with
  | none => 999
  | some a => if a.rank = 0 then 999 else a.rank

/-- The `lastSeen`/`lastAppearance` update of `seedUsersIndex` (part_000
71-78) for one score observation: the first branch fires when `lastSeen` is
absent or the observed date is strictly newer (JS string comparison), the
second when the date is equal and the observed rank strictly better. -/
def updateLastSeen (u : UserSeen) (gameId : String) (rank : Nat)
    (date : String) : UserSeen :=
  match u.lastSeen with
  | none => ⟨some date, some ⟨gameId, rank, date⟩⟩
  | some d0 =>
      if jsStrLt d0 date then ⟨some date, some ⟨gameId, rank, date⟩⟩
      else if date = d0 ∧ rank < storedAppearanceRank u.lastAppearance then
        { u with lastAppearance := some ⟨gameId, rank, date⟩ }
      else u

/-! ## Supporting lemmas about the merge fold -/

theorem getByKey_append {α : Type} (key : α → String) (l₁ l₂ : List α)
    (u : String) :
    getByKey key (l₁ ++ l₂) u =
      match getByKey key l₁ u with
      | some v => some v
      | none => getByKey key l₂ u := by
  rw [getByKey, List.find?_append]
  cases h : getByKey key l₁ u with
  | none => rw [getByKey] at h; rw [h]; rfl
  | some v => rw [getByKey] at h; rw [h]; rfl

theorem setByKey_append_right {α : Type} (key : α → String) {v : α}
    {l₁ : List α} (l₂ : List α) (h : key v ∉ keysOf key l₁) :
    setByKey key v (l₁ ++ l₂) = l₁ ++ setByKey key v l₂ := by
  induction l₁ with
  | nil => simp
  | cons x xs ih =>
    simp only [keysOf, List.map_cons, List.mem_cons] at h
    push_neg at h
    have hx : ¬ (key x = key v) := fun hh => h.1 hh.symm
    rw [List.cons_append, setByKey, if_neg hx, ih h.2, List.cons_append]

theorem mem_setByKey_cases {α : Type} (key : α → String) {v x : α}
    {l : List α} (h : x ∈ setByKey key v l) : x = v ∨ x ∈ l := by
  induction l with
  | nil => simpa [setByKey] using h
  | cons y ys ih =>
    by_cases hy : key y = key v
    · rw [setByKey, if_pos hy] at h
      rcases List.mem_cons.mp h with rfl | h2
      · exact Or.inl rfl
      · exact Or.inr (List.mem_cons_of_mem _ h2)
    · rw [setByKey, if_neg hy] at h
      rcases List.mem_cons.mp h with rfl | h2
      · exact Or.inr (List.mem_cons_self _ _)
      · rcases ih h2 with h3 | h3
        · exact Or.inl h3
        · exact Or.inr (List.mem_cons_of_mem _ h3)

theorem keysOf_setByKey_subset {α : Type} (key : α → String) {v : α}
    {l : List α} {u : String} (h : u ∈ keysOf key (setByKey key v l)) :
    u = key v ∨ u ∈ keysOf key l := by
  rcases List.mem_map.mp h with ⟨x, hx, rfl⟩
  rcases mem_setByKey_cases key hx with rfl | h2
  · exact Or.inl rfl
  · exact Or.inr (List.mem_map.mpr ⟨x, h2, rfl⟩)

theorem applyCandidate_of_none {date : String} {l : List ATEntry}
    {c : ScoreEntry} (h : getUser l c.username = none) :
    applyCandidate date l c = setByKey ATEntry.username (stampDate c date) l := by
  rw [applyCandidate, h]

theorem applyCandidate_of_lt {date : String} {l : List ATEntry}
    {c : ScoreEntry} {ex : ATEntry} (h : getUser l c.username = some ex)
    (hlt : ex.score < c.score) :
    applyCandidate date l c = setByKey ATEntry.username (stampDate c date) l := by
  rw [applyCandidate, h]
  exact if_pos hlt

theorem applyCandidate_of_ge {date : String} {l : List ATEntry}
    {c : ScoreEntry} {ex : ATEntry} (h : getUser l c.username = some ex)
    (hge : ¬ ex.score < c.score) :
    applyCandidate date l c = l := by
  rw [applyCandidate, h]
  exact if_neg hge

theorem nodup_keys_applyCandidate {date : String} {l : List ATEntry}
    (c : ScoreEntry) (h : (keysOf ATEntry.username l).Nodup) :
    (keysOf ATEntry.username (applyCandidate date l c)).Nodup := by
  cases hx : getUser l c.username with
  | none =>
    rw [applyCandidate_of_none hx]
    exact nodup_keys_setByKey _ h
  | some ex =>
    by_cases hlt : ex.score < c.score
    · rw [applyCandidate_of_lt hx hlt]
      exact nodup_keys_setByKey _ h
    · rw [applyCandidate_of_ge hx hlt]
      exact h

theorem nodup_keys_foldl_applyCandidate (date : String) :
    ∀ (cs : List ScoreEntry) (l : List ATEntry),
    (keysOf ATEntry.username l).Nodup →
    (keysOf ATEntry.username (cs.foldl (applyCandidate date) l)).Nodup := by
  intro cs
  induction cs with
  | nil => intro l h; exact h
  | cons c rest ih =>
    intro l h
    rw [List.foldl_cons]
    exact ih _ (nodup_keys_applyCandidate c h)

theorem nodup_keys_buildMap {α : Type} (key : α → String) (l : List α) :
    (keysOf key (buildMap key l)).Nodup := by
  rw [buildMap]
  suffices h : ∀ acc : List α, (keysOf key acc).Nodup →
      (keysOf key (l.foldl (fun a x => setByKey key x a) acc)).Nodup by
    exact h [] (by simp [keysOf])
  induction l with
  | nil => intro acc h; exact h
  | cons x xs ih =>
    intro acc h
    rw [List.foldl_cons]
    exact ih _ (nodup_keys_setByKey key h)

theorem nodup_usernames_mergeScores (existing : List ATEntry)
    (hs today : List ScoreEntry) (date : String) :
    (keysOf ATEntry.username (mergeScores existing hs today date)).Nodup := by
  rw [mergeScores]
  exact nodup_keys_foldl_applyCandidate date _ _
    (nodup_keys_buildMap ATEntry.username existing)

theorem getUser_foldl_mono (date : String) :
    ∀ (cs : List ScoreEntry) (l : List ATEntry) (u : String) (e : ATEntry),
    getUser l u = some e →
    ∃ e2, getUser (cs.foldl (applyCandidate date) l) u = some e2 ∧
      e.score ≤ e2.score := by
  intro cs
  induction cs with
  | nil => intro l u e h; exact ⟨e, h, le_refl _⟩
  | cons c rest ih =>
    intro l u e h
    rw [List.foldl_cons]
    by_cases hu : u = c.username
    · subst hu
      by_cases hlt : e.score < c.score
      · rw [applyCandidate_of_lt h hlt]
        have hself : getUser (setByKey ATEntry.username (stampDate c date) l)
            c.username = some (stampDate c date) :=
          getByKey_setByKey_self ATEntry.username
        rcases ih _ _ _ hself with ⟨e2, h2, hle⟩
        exact ⟨e2, h2, le_trans (le_of_lt hlt) hle⟩
      · rw [applyCandidate_of_ge h hlt]
        exact ih _ _ _ h
    · have hne : u ≠ (stampDate c date).username := hu
      cases hx : getUser l c.username with
      | none =>
        rw [applyCandidate_of_none hx]
        have : getUser (setByKey ATEntry.username (stampDate c date) l) u
            = some e := by
          rw [getUser, getByKey_setByKey_ne ATEntry.username hne]
          exact h
        exact ih _ _ _ this
      | some ex =>
        by_cases hlt : ex.score < c.score
        · rw [applyCandidate_of_lt hx hlt]
          have : getUser (setByKey ATEntry.username (stampDate c date) l) u
              = some e := by
            rw [getUser, getByKey_setByKey_ne ATEntry.username hne]
            exact h
          exact ih _ _ _ this
        · rw [applyCandidate_of_ge hx hlt]
          exact ih _ _ _ h

theorem getUser_foldl_ge_candidate (date : String) :
    ∀ (cs : List ScoreEntry) (l : List ATEntry) (c : ScoreEntry),
    c ∈ cs →
    ∃ e, getUser (cs.foldl (applyCandidate date) l) c.username = some e ∧
      c.score ≤ e.score := by
  intro cs
  induction cs with
  | nil => intro l c h; cases h
  | cons c0 rest ih =>
    intro l c hc
    rw [List.foldl_cons]
    rcases List.mem_cons.mp hc with rfl | hc2
    · cases hx : getUser l c.username with
      | none =>
        rw [applyCandidate_of_none hx]
        have hself : getUser (setByKey ATEntry.username (stampDate c date) l)
            c.username = some (stampDate c date) :=
          getByKey_setByKey_self ATEntry.username
        rcases getUser_foldl_mono date rest _ _ _ hself with ⟨e2, h2, hle⟩
        exact ⟨e2, h2, hle⟩
      | some ex =>
        by_cases hlt : ex.score < c.score
        · rw [applyCandidate_of_lt hx hlt]
          have hself : getUser (setByKey ATEntry.username (stampDate c date) l)
              c.username = some (stampDate c date) :=
            getByKey_setByKey_self ATEntry.username
          rcases getUser_foldl_mono date rest _ _ _ hself with ⟨e2, h2, hle⟩
          exact ⟨e2, h2, hle⟩
        · rw [applyCandidate_of_ge hx hlt]
          rcases getUser_foldl_mono date rest _ _ _ hx with ⟨e2, h2, hle⟩
          exact ⟨e2, h2, le_trans (le_of_not_lt hlt) hle⟩
    · exact ih _ _ hc2

theorem getUser_foldl_frame (date : String) :
    ∀ (cs : List ScoreEntry) (l : List ATEntry) (u : String),
    (∀ c ∈ cs, c.username ≠ u) →
    getUser (cs.foldl (applyCandidate date) l) u = getUser l u := by
  intro cs
  induction cs with
  | nil => intro l u _; rfl
  | cons c rest ih =>
    intro l u h
    rw [List.foldl_cons]
    have hcu : u ≠ (stampDate c date).username :=
      fun hh => h c (List.mem_cons_self _ _) hh.symm
    have hrest : ∀ c2 ∈ rest, c2.username ≠ u :=
      fun c2 hc2 => h c2 (List.mem_cons_of_mem _ hc2)
    cases hx : getUser l c.username with
    | none =>
      rw [applyCandidate_of_none hx, ih _ _ hrest, getUser,
        getByKey_setByKey_ne ATEntry.username hcu]
      rfl
    | some ex =>
      by_cases hlt : ex.score < c.score
      · rw [applyCandidate_of_lt hx hlt, ih _ _ hrest, getUser,
          getByKey_setByKey_ne ATEntry.username hcu]
        rfl
      · rw [applyCandidate_of_ge hx hlt, ih _ _ hrest]

theorem mem_foldl_applyCandidate (date : String) :
    ∀ (cs : List ScoreEntry) (l : List ATEntry) (w : ATEntry),
    w ∈ l → (∀ c ∈ cs, c.username ≠ w.username) →
    w ∈ cs.foldl (applyCandidate date) l := by
  intro cs
  induction cs with
  | nil => intro l w hw _; exact hw
  | cons c rest ih =>
    intro l w hw h
    rw [List.foldl_cons]
    have hcw : w.username ≠ (stampDate c date).username :=
      fun hh => h c (List.mem_cons_self _ _) hh.symm
    have hrest : ∀ c2 ∈ rest, c2.username ≠ w.username :=
      fun c2 hc2 => h c2 (List.mem_cons_of_mem _ hc2)
    cases hx : getUser l c.username with
    | none =>
      rw [applyCandidate_of_none hx]
      exact ih _ _ (mem_setByKey_of_mem _ hw hcw) hrest
    | some ex =>
      by_cases hlt : ex.score < c.score
      · rw [applyCandidate_of_lt hx hlt]
        exact ih _ _ (mem_setByKey_of_mem _ hw hcw) hrest
      · rw [applyCandidate_of_ge hx hlt]
        exact ih _ _ hw hrest

theorem length_reRankFrom (n : Nat) (l : List ATEntry) :
    (reRankFrom n l).length = l.length := by
  induction l generalizing n with
  | nil => rfl
  | cons e es ih => simp [reRankFrom, ih]

theorem keysOf_reRankFrom (n : Nat) (l : List ATEntry) :
    keysOf ATEntry.username (reRankFrom n l) = keysOf ATEntry.username l := by
  induction l generalizing n with
  | nil => rfl
  | cons e es ih => simp [reRankFrom, keysOf] at ih ⊢; exact ih _

theorem map_score_reRankFrom (n : Nat) (l : List ATEntry) :
    (reRankFrom n l).map ATEntry.score = l.map ATEntry.score := by
  induction l generalizing n with
  | nil => rfl
  | cons e es ih => simp [reRankFrom, ih]

theorem mem_reRankFrom {e : ATEntry} {l : List ATEntry} {n : Nat}
    (h : e ∈ reRankFrom n l) :
    ∃ e1 ∈ l, e.username = e1.username ∧ e.score = e1.score ∧
      e.achievedOn = e1.achievedOn := by
  induction l generalizing n with
  | nil => cases h
  | cons x xs ih =>
    rw [reRankFrom] at h
    rcases List.mem_cons.mp h with rfl | h2
    · exact ⟨x, List.mem_cons_self _ _, rfl, rfl, rfl⟩
    · rcases ih h2 with ⟨e1, he1, hu, hs, ha⟩
      exact ⟨e1, List.mem_cons_of_mem _ he1, hu, hs, ha⟩

theorem reRankFrom_mem_of_mem {e1 : ATEntry} {l : List ATEntry}
    (h : e1 ∈ l) (n : Nat) : ∃ r, { e1 with rank := r } ∈ reRankFrom n l := by
  induction l generalizing n with
  | nil => cases h
  | cons x xs ih =>
    rcases List.mem_cons.mp h with rfl | h2
    · exact ⟨n, List.mem_cons_self _ _⟩
    · rcases ih h2 (n + 1) with ⟨r, hr⟩
      exact ⟨r, List.mem_cons_of_mem _ hr⟩

theorem sortedDesc_map_iff (l : List ATEntry) :
    SortedDesc ATEntry.score l ↔
      (l.map ATEntry.score).Pairwise (fun a b => b ≤ a) := by
  rw [SortedDesc, List.pairwise_map]

theorem sortedDesc_reRankFrom {l : List ATEntry} (n : Nat)
    (h : SortedDesc ATEntry.score l) :
    SortedDesc ATEntry.score (reRankFrom n l) := by
  rw [sortedDesc_map_iff, map_score_reRankFrom]
  exact (sortedDesc_map_iff l).mp h

theorem reRankFrom_reRankFrom (n m : Nat) (l : List ATEntry) :
    reRankFrom n (reRankFrom m l) = reRankFrom n l := by
  induction l generalizing n m with
  | nil => rfl
  | cons e es ih => simp [reRankFrom, ih]

theorem headAchievedToday_reRankFrom (n : Nat) (l : List ATEntry)
    (date : String) :
    headAchievedToday (reRankFrom n l) date = headAchievedToday l date := by
  cases l with
  | nil => rfl
  | cons e es => rfl

theorem get_reRankFrom_rank : ∀ (l : List ATEntry) (n i : Nat)
    (h : i < (reRankFrom n l).length),
    ((reRankFrom n l).get ⟨i, h⟩).rank = n + i := by
  intro l
  induction l with
  | nil => intro n i h; simp [reRankFrom] at h
  | cons e es ih =>
    intro n i h
    cases i with
    | zero => rfl
    | succ j =>
      have hj : j < (reRankFrom (n + 1) es).length := by
        have hlen : (reRankFrom n (e :: es)).length =
            (reRankFrom (n + 1) es).length + 1 := by
          simp [reRankFrom]
        omega
      have hstep : ((reRankFrom n (e :: es)).get ⟨j + 1, h⟩) =
          ((reRankFrom (n + 1) es).get ⟨j, hj⟩) := rfl
      rw [hstep, ih (n + 1) j hj]
      omega

theorem keysOf_append {α : Type} (key : α → String) (l₁ l₂ : List α) :
    keysOf key (l₁ ++ l₂) = keysOf key l₁ ++ keysOf key l₂ := by
  simp [keysOf]

theorem getUser_append_left {l ex : List ATEntry} {u : String} {e : ATEntry}
    (h : getUser l u = some e) : getUser (l ++ ex) u = some e := by
  rw [getUser] at h ⊢
  rw [getByKey_append, h]

theorem getUser_append_right {l ex : List ATEntry} {u : String}
    (h : getUser l u = none) : getUser (l ++ ex) u = getUser ex u := by
  rw [getUser] at h ⊢
  rw [getByKey_append, h]
  rfl

/-- When every candidate scores no higher than the prefix entry of its
username, the candidate fold never touches the prefix: it only appends (and
later updates) entries of fresh usernames behind it, each of which is some
candidate stamped with the ingestion date. -/
theorem foldl_applyCandidate_split (date : String) (l : List ATEntry) :
    ∀ (cs : List ScoreEntry) (ex : List ATEntry),
    (∀ c ∈ cs, ∀ e, getUser l c.username = some e → c.score ≤ e.score) →
    (∀ x ∈ ex, x.username ∉ keysOf ATEntry.username l) →
    ∃ ex2, cs.foldl (applyCandidate date) (l ++ ex) = l ++ ex2 ∧
      (∀ x ∈ ex2, x.username ∉ keysOf ATEntry.username l) ∧
      (∀ x ∈ ex2, (∃ c ∈ cs, x = stampDate c date) ∨ x ∈ ex) := by
  intro cs
  induction cs with
  | nil =>
    intro ex _ hbase
    exact ⟨ex, rfl, hbase, fun x hx => Or.inr hx⟩
  | cons c rest ih =>
    intro ex hle hbase
    have hle2 : ∀ c2 ∈ rest, ∀ e, getUser l c2.username = some e →
        c2.score ≤ e.score :=
      fun c2 hc2 => hle c2 (List.mem_cons_of_mem _ hc2)
    rw [List.foldl_cons]
    cases hl : getUser l c.username with
    | some e =>
      have hnlt : ¬ e.score < c.score :=
        not_lt_of_le (hle c (List.mem_cons_self _ _) e hl)
      rw [applyCandidate_of_ge (getUser_append_left hl) hnlt]
      rcases ih ex hle2 hbase with ⟨ex2, heq, hk, hshape⟩
      refine ⟨ex2, heq, hk, fun x hx => ?_⟩
      rcases hshape x hx with ⟨c2, hc2, hx2⟩ | hx2
      · exact Or.inl ⟨c2, List.mem_cons_of_mem _ hc2, hx2⟩
      · exact Or.inr hx2
    | none =>
      have hnotl : c.username ∉ keysOf ATEntry.username l :=
        (getByKey_eq_none_iff ATEntry.username).mp hl
      have hcomb : getUser (l ++ ex) c.username = getUser ex c.username :=
        getUser_append_right hl
      cases hex : getUser ex c.username with
      | some y =>
        by_cases hlt : y.score < c.score
        · rw [applyCandidate_of_lt (hcomb.trans hex) hlt,
            setByKey_append_right ATEntry.username ex hnotl]
          have hbase2 : ∀ x ∈ setByKey ATEntry.username (stampDate c date) ex,
              x.username ∉ keysOf ATEntry.username l := by
            intro x hx
            rcases mem_setByKey_cases ATEntry.username hx with rfl | hx2
            · exact hnotl
            · exact hbase x hx2
          rcases ih _ hle2 hbase2 with ⟨ex2, heq, hk, hshape⟩
          refine ⟨ex2, heq, hk, fun x hx => ?_⟩
          rcases hshape x hx with ⟨c2, hc2, hx2⟩ | hx2
          · exact Or.inl ⟨c2, List.mem_cons_of_mem _ hc2, hx2⟩
          · rcases mem_setByKey_cases ATEntry.username hx2 with rfl | hx3
            · exact Or.inl ⟨c, List.mem_cons_self _ _, rfl⟩
            · exact Or.inr hx3
        · rw [applyCandidate_of_ge (hcomb.trans hex) hlt]
          rcases ih ex hle2 hbase with ⟨ex2, heq, hk, hshape⟩
          refine ⟨ex2, heq, hk, fun x hx => ?_⟩
          rcases hshape x hx with ⟨c2, hc2, hx2⟩ | hx2
          · exact Or.inl ⟨c2, List.mem_cons_of_mem _ hc2, hx2⟩
          · exact Or.inr hx2
      | none =>
        have hcombn : getUser (l ++ ex) c.username = none := hcomb.trans hex
        rw [applyCandidate_of_none hcombn]
        have hnotex : c.username ∉ keysOf ATEntry.username ex :=
          (getByKey_eq_none_iff ATEntry.username).mp hex
        have hnotall : (stampDate c date).username ∉
            keysOf ATEntry.username (l ++ ex) := by
          rw [keysOf_append]
          intro hmem
          rcases List.mem_append.mp hmem with hm | hm
          · exact hnotl hm
          · exact hnotex hm
        rw [setByKey_of_not_mem ATEntry.username hnotall, List.append_assoc]
        have hbase2 : ∀ x ∈ ex ++ [stampDate c date],
            x.username ∉ keysOf ATEntry.username l := by
          intro x hx
          rcases List.mem_append.mp hx with hm | hm
          · exact hbase x hm
          · rcases List.mem_singleton.mp hm with rfl
            exact hnotl
        rcases ih _ hle2 hbase2 with ⟨ex2, heq, hk, hshape⟩
        refine ⟨ex2, heq, hk, fun x hx => ?_⟩
        rcases hshape x hx with ⟨c2, hc2, hx2⟩ | hx2
        · exact Or.inl ⟨c2, List.mem_cons_of_mem _ hc2, hx2⟩
        · rcases List.mem_append.mp hx2 with hm | hm
          · exact Or.inr hm
          · rcases List.mem_singleton.mp hm with rfl
            exact Or.inl ⟨c, List.mem_cons_self _ _, rfl⟩

theorem atGame_ext {a b : ATGame} (h1 : a.name = b.name)
    (h2 : a.topAvatar = b.topAvatar) (h3 : a.scores = b.scores) : a = b := by
  cases a
  cases b
  cases h1
  cases h2
  cases h3
  rfl

/-- Merging the same day a second time into a game that went through the merge
path is a no-op: every candidate score is already dominated by the stored
entry of its username, so the fold only re-appends entries that the previous
truncation dropped, and those sort behind the kept top 50 again. -/
theorem mergeGame_idem (g : ATGame) (d : GameDay) (date : String) :
    mergeGame (mergeGame g d date) d date = mergeGame g d date := by
  have hM1nd : (keysOf ATEntry.username
      (mergeScores g.scores d.highscores.scores d.today.scores date)).Nodup :=
    nodup_usernames_mergeScores g.scores d.highscores.scores d.today.scores date
  have hSperm : List.Perm
      (sortByScoreDesc ATEntry.score
        (mergeScores g.scores d.highscores.scores d.today.scores date))
      (mergeScores g.scores d.highscores.scores d.today.scores date) :=
    sortByScoreDesc_perm ATEntry.score _
  have hSsorted : SortedDesc ATEntry.score
      (sortByScoreDesc ATEntry.score
        (mergeScores g.scores d.highscores.scores d.today.scores date)) :=
    sortedDesc_sortByScoreDesc ATEntry.score _
  have hSnd : (keysOf ATEntry.username
      (sortByScoreDesc ATEntry.score
        (mergeScores g.scores d.highscores.scores d.today.scores date))).Nodup :=
    (List.Perm.nodup_iff (List.Perm.map ATEntry.username hSperm)).mpr hM1nd
  have hKsorted : SortedDesc ATEntry.score
      ((sortByScoreDesc ATEntry.score
        (mergeScores g.scores d.highscores.scores d.today.scores date)).take 50) :=
    List.Pairwise.sublist (List.take_sublist 50 _) hSsorted
  have hKnd : (keysOf ATEntry.username
      ((sortByScoreDesc ATEntry.score
        (mergeScores g.scores d.highscores.scores d.today.scores date)).take 50)).Nodup := by
    rw [keysOf, List.map_take]
    exact List.Pairwise.sublist (List.take_sublist 50 _) hSnd
  have hR1scores : (mergeGame g d date).scores =
      reRank ((sortByScoreDesc ATEntry.score
        (mergeScores g.scores d.highscores.scores d.today.scores date)).take 50) := rfl
  have hR1sorted : SortedDesc ATEntry.score (mergeGame g d date).scores := by
    rw [hR1scores, reRank]
    exact sortedDesc_reRankFrom 1 hKsorted
  have hR1keys : keysOf ATEntry.username (mergeGame g d date).scores =
      keysOf ATEntry.username
        ((sortByScoreDesc ATEntry.score
          (mergeScores g.scores d.highscores.scores d.today.scores date)).take 50) := by
    rw [hR1scores, reRank, keysOf_reRankFrom]
  have hR1nd : (keysOf ATEntry.username (mergeGame g d date).scores).Nodup := by
    rw [hR1keys]
    exact hKnd
  have hbuild : buildMap ATEntry.username (mergeGame g d date).scores =
      (mergeGame g d date).scores :=
    buildMap_eq_self ATEntry.username hR1nd
  -- every candidate is dominated by the stored entry of its username
  have hpre : ∀ c ∈ d.highscores.scores ++ d.today.scores, ∀ e,
      getUser (mergeGame g d date).scores c.username = some e →
      c.score ≤ e.score := by
    intro c hc e he
    have he_user : e.username = c.username :=
      getByKey_some_key ATEntry.username he
    have he_mem : e ∈ (mergeGame g d date).scores :=
      getByKey_some_mem ATEntry.username he
    rw [hR1scores, reRank] at he_mem
    rcases mem_reRankFrom he_mem with ⟨e1, he1K, hu1, hs1, _⟩
    have he1S : e1 ∈ sortByScoreDesc ATEntry.score
        (mergeScores g.scores d.highscores.scores d.today.scores date) :=
      List.Sublist.mem he1K (List.take_sublist 50 _)
    have he1M : e1 ∈ mergeScores g.scores d.highscores.scores d.today.scores date :=
      hSperm.mem_iff.mp he1S
    rcases getUser_foldl_ge_candidate date _ (buildMap ATEntry.username g.scores)
        c hc with ⟨em, hem, hcle⟩
    have he1look : getUser (mergeScores g.scores d.highscores.scores
        d.today.scores date) e1.username = some e1 :=
      getByKey_eq_some_of_mem_nodup ATEntry.username hM1nd he1M
    have hu1c : e1.username = c.username := by
      rw [← hu1, he_user]
    rw [hu1c] at he1look
    have hee : em = e1 := by
      have h2 := he1look.symm.trans hem
      injection h2 with h3
      exact h3.symm
    rw [hs1, ← hee]
    exact hcle
  -- second merge decomposes as the kept prefix plus re-appended extras
  have hnil : ∀ x ∈ ([] : List ATEntry),
      x.username ∉ keysOf ATEntry.username (mergeGame g d date).scores := by
    intro x hx
    cases hx
  rcases foldl_applyCandidate_split date (mergeGame g d date).scores
      (d.highscores.scores ++ d.today.scores) [] hpre hnil with
    ⟨ex2, heq, hk, hshape⟩
  rw [List.append_nil] at heq
  -- every extra is dominated by an entry the truncation dropped
  have hem_drop : ∀ x ∈ ex2, ∃ em ∈ (sortByScoreDesc ATEntry.score
      (mergeScores g.scores d.highscores.scores d.today.scores date)).drop 50,
      x.score ≤ em.score := by
    intro x hx
    rcases hshape x hx with ⟨c, hc, rfl⟩ | hfalse
    · rcases getUser_foldl_ge_candidate date _
          (buildMap ATEntry.username g.scores) c hc with ⟨em, hem, hcle⟩
      have hemM : em ∈ mergeScores g.scores d.highscores.scores
          d.today.scores date :=
        getByKey_some_mem ATEntry.username hem
      have hem_user : em.username = c.username :=
        getByKey_some_key ATEntry.username hem
      have hemS : em ∈ sortByScoreDesc ATEntry.score
          (mergeScores g.scores d.highscores.scores d.today.scores date) :=
        hSperm.mem_iff.mpr hemM
      rw [← List.take_append_drop 50 (sortByScoreDesc ATEntry.score
        (mergeScores g.scores d.highscores.scores d.today.scores date))] at hemS
      rcases List.mem_append.mp hemS with hin | hin
      · exfalso
        have : (stampDate c date).username ∈
            keysOf ATEntry.username (mergeGame g d date).scores := by
          rw [hR1keys]
          exact List.mem_map.mpr ⟨em, hin, hem_user⟩
        exact hk _ hx this
      · exact ⟨em, hin, hcle⟩
    · cases hfalse
  have hbound : ∀ k ∈ (mergeGame g d date).scores, ∀ x ∈ ex2,
      x.score ≤ k.score := by
    intro k hkmem x hx
    rcases hem_drop x hx with ⟨em, hemD, hxle⟩
    have hkK := hkmem
    rw [hR1scores, reRank] at hkK
    rcases mem_reRankFrom hkK with ⟨k1, hk1K, _, hks, _⟩
    have hpair := hSsorted
    rw [← List.take_append_drop 50 (sortByScoreDesc ATEntry.score
      (mergeScores g.scores d.highscores.scores d.today.scores date)),
      SortedDesc, List.pairwise_append] at hpair
    have := hpair.2.2 k1 hk1K em hemD
    rw [hks]
    exact le_trans hxle this
  have hlen_le : (mergeGame g d date).scores.length ≤ 50 := by
    rw [hR1scores, reRank, length_reRankFrom, List.length_take]
    exact min_le_left _ _
  have hlen50 : ex2 ≠ [] → (mergeGame g d date).scores.length = 50 := by
    intro hne
    rcases List.exists_mem_of_ne_nil ex2 hne with ⟨x, hx⟩
    rcases hem_drop x hx with ⟨em, hemD, _⟩
    have hdne : (sortByScoreDesc ATEntry.score
        (mergeScores g.scores d.highscores.scores d.today.scores date)).drop 50
        ≠ [] := by
      intro hempty
      rw [hempty] at hemD
      cases hemD
    have hlen : 50 < (sortByScoreDesc ATEntry.score
        (mergeScores g.scores d.highscores.scores d.today.scores date)).length := by
      by_contra hle
      exact hdne (List.drop_eq_nil_iff.mpr (le_of_not_lt hle))
    rw [hR1scores, reRank, length_reRankFrom, List.length_take]
    omega
  -- the second sort/truncate/re-rank returns exactly the stored scores
  have hfinal : sortTruncRank (mergeScores (mergeGame g d date).scores
      d.highscores.scores d.today.scores date) = (mergeGame g d date).scores := by
    have hms : mergeScores (mergeGame g d date).scores d.highscores.scores
        d.today.scores date = (mergeGame g d date).scores ++ ex2 := by
      rw [mergeScores, hbuild]
      exact heq
    rw [hms, sortTruncRank,
      sortByScoreDesc_append ATEntry.score hR1sorted hbound]
    have htake : ((mergeGame g d date).scores ++
        sortByScoreDesc ATEntry.score ex2).take 50 =
        (mergeGame g d date).scores := by
      by_cases hex : ex2 = []
      · subst hex
        rw [sortByScoreDesc, List.append_nil]
        exact List.take_of_length_le hlen_le
      · have h50 := hlen50 hex
        rw [← h50]
        exact List.take_left _ _
    rw [htake, hR1scores, reRank, reRank, reRankFrom_reRankFrom]
  -- assemble the record equality
  refine atGame_ext rfl ?_ hfinal
  have hcond : headAchievedToday (sortTruncRank (mergeScores
      (mergeGame g d date).scores d.highscores.scores d.today.scores date))
      date = headAchievedToday (mergeGame g d date).scores date := by
    rw [hfinal]
  show (if headAchievedToday (sortTruncRank (mergeScores
      (mergeGame g d date).scores d.highscores.scores d.today.scores date))
      date = true then
        (d.today.topAvatar.orElse fun _ =>
          d.highscores.topAvatar.orElse fun _ => (mergeGame g d date).topAvatar)
      else (mergeGame g d date).topAvatar) = (mergeGame g d date).topAvatar
  rw [hcond]
  have hcond2 : headAchievedToday (mergeGame g d date).scores date =
      headAchievedToday (sortTruncRank (mergeScores g.scores
        d.highscores.scores d.today.scores date)) date := rfl
  by_cases htrue : headAchievedToday (mergeGame g d date).scores date = true
  · rw [if_pos htrue]
    have hAv : (mergeGame g d date).topAvatar =
        (d.today.topAvatar.orElse fun _ =>
          d.highscores.topAvatar.orElse fun _ => g.topAvatar) := by
      show (if headAchievedToday (sortTruncRank (mergeScores g.scores
          d.highscores.scores d.today.scores date)) date = true then
            (d.today.topAvatar.orElse fun _ =>
              d.highscores.topAvatar.orElse fun _ => g.topAvatar)
          else g.topAvatar) =
          (d.today.topAvatar.orElse fun _ =>
            d.highscores.topAvatar.orElse fun _ => g.topAvatar)
      rw [if_pos (hcond2 ▸ htrue)]
    rw [hAv]
    cases d.today.topAvatar with
    | some a => rfl
    | none =>
      cases d.highscores.topAvatar with
      | some b => rfl
      | none => rfl
  · rw [if_neg htrue]

theorem mergeGameStep_of_none {date : String} {acc : List (String × ATGame)}
    {kv : String × GameDay} (h : getByKey Prod.fst acc kv.1 = none) :
    mergeGameStep date acc kv =
      setByKey Prod.fst (kv.1, seedGame kv.2 date) acc := by
  rw [mergeGameStep, h]

theorem mergeGameStep_of_some {date : String} {acc : List (String × ATGame)}
    {kv : String × GameDay} {g : String × ATGame}
    (h : getByKey Prod.fst acc kv.1 = some g) :
    mergeGameStep date acc kv =
      setByKey Prod.fst (kv.1, mergeGame g.2 kv.2 date) acc := by
  rw [mergeGameStep, h]

theorem mergeAllGames_lookup_frame (date : String) :
    ∀ (incoming : List (String × GameDay)) (gs : List (String × ATGame))
    (k : String), (∀ kv ∈ incoming, kv.1 ≠ k) →
    getByKey Prod.fst (mergeAllGames gs incoming date) k =
      getByKey Prod.fst gs k := by
  intro incoming
  induction incoming with
  | nil => intro gs k _; rfl
  | cons kv rest ih =>
    intro gs k h
    have hk : k ≠ kv.1 := fun hh => h kv (List.mem_cons_self _ _) hh.symm
    have hrest : ∀ kv2 ∈ rest, kv2.1 ≠ k :=
      fun kv2 hkv2 => h kv2 (List.mem_cons_of_mem _ hkv2)
    rw [mergeAllGames, List.foldl_cons]
    cases hx : getByKey Prod.fst gs kv.1 with
    | none =>
      rw [mergeGameStep_of_none hx]
      have := ih (setByKey Prod.fst (kv.1, seedGame kv.2 date) gs) k hrest
      rw [mergeAllGames] at this
      rw [this,
        getByKey_setByKey_ne Prod.fst (v := (kv.1, seedGame kv.2 date)) hk]
    | some g =>
      rw [mergeGameStep_of_some hx]
      have := ih (setByKey Prod.fst (kv.1, mergeGame g.2 kv.2 date) gs) k hrest
      rw [mergeAllGames] at this
      rw [this,
        getByKey_setByKey_ne Prod.fst (v := (kv.1, mergeGame g.2 kv.2 date)) hk]

theorem mergeAllGames_lookup (date : String) :
    ∀ (incoming : List (String × GameDay)) (gs : List (String × ATGame))
    (k : String) (dgame : GameDay) (kv0 : String × ATGame),
    (incoming.map Prod.fst).Nodup → (k, dgame) ∈ incoming →
    getByKey Prod.fst gs k = some kv0 →
    getByKey Prod.fst (mergeAllGames gs incoming date) k =
      some (k, mergeGame kv0.2 dgame date) := by
  intro incoming
  induction incoming with
  | nil => intro gs k dgame kv0 _ hmem; cases hmem
  | cons kv rest ih =>
    intro gs k dgame kv0 hnd hmem hg
    have hnd2 : (rest.map Prod.fst).Nodup := (List.nodup_cons.mp hnd).2
    have hknotrest : kv.1 ∉ rest.map Prod.fst := (List.nodup_cons.mp hnd).1
    rw [mergeAllGames, List.foldl_cons]
    rcases List.mem_cons.mp hmem with heq | hmem2
    · have hk1 : kv.1 = k := by rw [← heq]
      have hd : kv.2 = dgame := by rw [← heq]
      rw [hk1] at hknotrest
      have hx : getByKey Prod.fst gs kv.1 = some kv0 := by rw [hk1]; exact hg
      rw [mergeGameStep_of_some hx]
      have hframe : ∀ kv2 ∈ rest, kv2.1 ≠ k := by
        intro kv2 hkv2 hh
        exact hknotrest (hh ▸ List.mem_map.mpr ⟨kv2, hkv2, rfl⟩)
      have := mergeAllGames_lookup_frame date rest
        (setByKey Prod.fst (kv.1, mergeGame kv0.2 kv.2 date) gs) k hframe
      rw [mergeAllGames] at this
      rw [this, hk1, hd]
      have hself := getByKey_setByKey_self Prod.fst
        (v := (k, mergeGame kv0.2 dgame date))
        (l := gs)
      exact hself
    · have hkne : k ≠ kv.1 := by
        intro hh
        exact hknotrest (hh ▸ List.mem_map.mpr ⟨(k, dgame), hmem2, rfl⟩)
      cases hx : getByKey Prod.fst gs kv.1 with
      | none =>
        rw [mergeGameStep_of_none hx]
        refine ih _ k dgame kv0 hnd2 hmem2 ?_
        rw [getByKey_setByKey_ne Prod.fst (v := (kv.1, seedGame kv.2 date)) hkne]
        exact hg
      | some g =>
        rw [mergeGameStep_of_some hx]
        refine ih _ k dgame kv0 hnd2 hmem2 ?_
        rw [getByKey_setByKey_ne Prod.fst
          (v := (kv.1, mergeGame g.2 kv.2 date)) hkne]
        exact hg

theorem mergeAllGames_fix (date : String) :
    ∀ (incoming : List (String × GameDay)) (gs : List (String × ATGame)),
    (∀ kv ∈ incoming, ∃ g, getByKey Prod.fst gs kv.1 = some (kv.1, g) ∧
      mergeGame g kv.2 date = g) →
    mergeAllGames gs incoming date = gs := by
  intro incoming
  induction incoming with
  | nil => intro gs _; rfl
  | cons kv rest ih =>
    intro gs h
    rcases h kv (List.mem_cons_self _ _) with ⟨g, hg, hfix⟩
    rw [mergeAllGames, List.foldl_cons, mergeGameStep_of_some hg]
    have hset : setByKey Prod.fst (kv.1, mergeGame g kv.2 date) gs = gs := by
      rw [hfix]
      exact setByKey_eq_self Prod.fst (v := (kv.1, g)) hg
    rw [hset]
    have := ih gs (fun kv2 hkv2 => h kv2 (List.mem_cons_of_mem _ hkv2))
    rw [mergeAllGames] at this
    exact this

/-! ## Claim C1 — idempotent merge -/

/-- A day whose `today` block carries a user and an avatar that the cold-start
seeding (which reads only the `highscores` block) ignores. -/
def c1Day : GameDay :=
  { name := "Castle Fireworks Remixed"
    today := ⟨some "t.png", [⟨1, "Bob", 50⟩]⟩
    yesterday := ⟨none, []⟩
    highscores := ⟨some "h.png", [⟨1, "Ariel", 100⟩]⟩ }

/-- C1 counterexample: merging a day into an empty all-time record seeds the
game from the `highscores` block alone, so re-merging the same day adds the
`today` block's user (and switches `topAvatar` to the `today` avatar) — the
merge is not idempotent on a cold start. -/
theorem updateAllTime_not_idempotent_on_cold_start :
    updateAllTime (updateAllTime ⟨"2024-01-01", []⟩ [("castle-fireworks", c1Day)]
        "2024-01-02") [("castle-fireworks", c1Day)] "2024-01-02" ≠
      updateAllTime ⟨"2024-01-01", []⟩ [("castle-fireworks", c1Day)]
        "2024-01-02" := by
  decide

/-- C1 (amended): provided every incoming game already exists in the all-time
record (so that no game takes the cold-start seeding path) and the incoming
game ids are distinct, merging the same day a second time yields an identical
record: same entries, scores, achievedOn dates, ranks, and topAvatar. -/
theorem updateAllTime_idem (R : AllTime) (D : List (String × GameDay))
    (date : String)
    (hpres : ∀ kv ∈ D, (getByKey Prod.fst R.games kv.1).isSome = true)
    (hnd : (D.map Prod.fst).Nodup) :
    updateAllTime (updateAllTime R D date) D date = updateAllTime R D date := by
  show AllTime.mk date (mergeAllGames (mergeAllGames R.games D date) D date) =
    AllTime.mk date (mergeAllGames R.games D date)
  congr 1
  apply mergeAllGames_fix
  intro kv hkv
  rcases Option.isSome_iff_exists.mp (hpres kv hkv) with ⟨g0, hg0⟩
  have hkv2 : (kv.1, kv.2) ∈ D := by
    rw [Prod.mk.eta]
    exact hkv
  have hlk := mergeAllGames_lookup date D R.games kv.1 kv.2 g0 hnd hkv2 hg0
  exact ⟨mergeGame g0.2 kv.2 date, hlk, mergeGame_idem _ _ _⟩

/-- An existing all-time game for the C1 witness. -/
def c1Game : ATGame :=
  ⟨"Castle Fireworks Remixed", some "old.png", [⟨1, "Carol", 120, "2023-12-31"⟩]⟩

theorem updateAllTime_idem_witness :
    (∀ kv ∈ [("castle-fireworks", c1Day)],
      (getByKey Prod.fst (AllTime.mk "2024-01-01"
        [("castle-fireworks", c1Game)]).games kv.1).isSome = true) ∧
    (([("castle-fireworks", c1Day)].map Prod.fst).Nodup) ∧
    updateAllTime (updateAllTime ⟨"2024-01-01", [("castle-fireworks", c1Game)]⟩
        [("castle-fireworks", c1Day)] "2024-01-02")
        [("castle-fireworks", c1Day)] "2024-01-02" =
      updateAllTime ⟨"2024-01-01", [("castle-fireworks", c1Game)]⟩
        [("castle-fireworks", c1Day)] "2024-01-02" :=
  ⟨by decide, by decide,
    updateAllTime_idem ⟨"2024-01-01", [("castle-fireworks", c1Game)]⟩
      [("castle-fireworks", c1Day)] "2024-01-02" (by decide) (by decide)⟩

/-! ## Claim C2 — top-N invariant -/

theorem map_rank_reRankFrom : ∀ (l : List ATEntry) (n : Nat),
    (reRankFrom n l).map ATEntry.rank = List.range' n l.length := by
  intro l
  induction l with
  | nil => intro n; rfl
  | cons e es ih =>
    intro n
    rw [reRankFrom, List.length_cons, List.range'_succ, List.map_cons, ih]

/-- A day whose `highscores` block is not sorted descending by score. -/
def c2Day : GameDay :=
  { name := "Pirates of the Caribbean"
    today := ⟨none, []⟩
    yesterday := ⟨none, []⟩
    highscores := ⟨none, [⟨1, "A", 5⟩, ⟨2, "B", 10⟩]⟩ }

/-- C2 counterexample: a game that is seeded on cold start copies the incoming
`highscores` list verbatim — no sort, no truncation, no re-ranking — so a
non-descending incoming block leaves the resulting game's list unsorted, and
the invariant does not hold after every merge. -/
theorem topN_invariant_fails_on_seed :
    (updateAllTime ⟨"2024-01-01", []⟩ [("pirates", c2Day)] "2024-01-02").games =
      [("pirates", ⟨"Pirates of the Caribbean", none,
        [⟨1, "A", 5, "2024-01-02"⟩, ⟨2, "B", 10, "2024-01-02"⟩]⟩)] ∧
    ¬ SortedDesc ATEntry.score
      [⟨1, "A", 5, "2024-01-02"⟩, ⟨2, "B", 10, "2024-01-02"⟩] := by
  constructor
  · decide
  · intro h
    rcases List.pairwise_cons.mp h with ⟨hh, _⟩
    have := hh ⟨2, "B", 10, "2024-01-02"⟩ (List.mem_cons_self _ _)
    simp at this

/-- C2 (amended): every game that goes through the merge path (it already
existed in the record) satisfies the invariant after the merge: at most 50
entries, sorted non-increasingly by score, and ranks exactly 1..length. -/
theorem mergeGame_topN_invariant (g : ATGame) (d : GameDay) (date : String) :
    (mergeGame g d date).scores.length ≤ 50 ∧
    SortedDesc ATEntry.score (mergeGame g d date).scores ∧
    (mergeGame g d date).scores.map ATEntry.rank =
      List.range' 1 (mergeGame g d date).scores.length := by
  have hscores : (mergeGame g d date).scores =
      reRank ((sortByScoreDesc ATEntry.score
        (mergeScores g.scores d.highscores.scores d.today.scores date)).take 50) :=
    rfl
  refine ⟨?_, ?_, ?_⟩
  · rw [hscores, reRank, length_reRankFrom, List.length_take]
    exact min_le_left _ _
  · rw [hscores, reRank]
    exact sortedDesc_reRankFrom 1 (List.Pairwise.sublist
      (List.take_sublist 50 _) (sortedDesc_sortByScoreDesc _ _))
  · rw [hscores, reRank, map_rank_reRankFrom, length_reRankFrom]

/-! ## Claim C3 — best-score-wins -/

/-- C3: for an existing entry `ex` stored under the candidate's username, the
candidate replaces it — with the candidate's score and `achievedOn = date` —
iff its score is strictly greater; otherwise (equality included) the whole
map, and in particular the stored score and `achievedOn`, is left unchanged. -/
theorem applyCandidate_best_score_wins (date : String) (l : List ATEntry)
    (c : ScoreEntry) (ex : ATEntry) (h : getUser l c.username = some ex) :
    (ex.score < c.score →
      getUser (applyCandidate date l c) c.username =
        some ⟨c.rank, c.username, c.score, date⟩) ∧
    (¬ ex.score < c.score → applyCandidate date l c = l) := by
  constructor
  · intro hlt
    rw [applyCandidate_of_lt h hlt]
    exact getByKey_setByKey_self ATEntry.username
  · intro hge
    exact applyCandidate_of_ge h hge

theorem applyCandidate_best_score_wins_witness :
    (getUser [⟨1, "Ariel", 100, "2024-01-01"⟩] (⟨2, "Ariel", 150⟩ : ScoreEntry).username =
      some ⟨1, "Ariel", 100, "2024-01-01"⟩) ∧
    (((⟨1, "Ariel", 100, "2024-01-01"⟩ : ATEntry).score <
        (⟨2, "Ariel", 150⟩ : ScoreEntry).score →
      getUser (applyCandidate "2024-01-02" [⟨1, "Ariel", 100, "2024-01-01"⟩]
          ⟨2, "Ariel", 150⟩) (⟨2, "Ariel", 150⟩ : ScoreEntry).username =
        some ⟨2, "Ariel", 150, "2024-01-02"⟩) ∧
    (¬ (⟨1, "Ariel", 100, "2024-01-01"⟩ : ATEntry).score <
        (⟨2, "Ariel", 150⟩ : ScoreEntry).score →
      applyCandidate "2024-01-02" [⟨1, "Ariel", 100, "2024-01-01"⟩]
        ⟨2, "Ariel", 150⟩ = [⟨1, "Ariel", 100, "2024-01-01"⟩])) :=
  ⟨by decide,
    applyCandidate_best_score_wins "2024-01-02" [⟨1, "Ariel", 100, "2024-01-01"⟩]
      ⟨2, "Ariel", 150⟩ ⟨1, "Ariel", 100, "2024-01-01"⟩ (by decide)⟩

/-! ## Claim C8 — usernames compared case-insensitively -/

/-- An all-time game holding "Ariel" and a day bringing "ARIEL". -/
def c8Game : ATGame :=
  ⟨"Haunted Mansion", none, [⟨1, "Ariel", 100, "2024-01-01"⟩]⟩

/-- The day for the C8 counterexample. -/
def c8Day : GameDay :=
  { name := "Haunted Mansion"
    today := ⟨none, []⟩
    yesterday := ⟨none, []⟩
    highscores := ⟨none, [⟨1, "ARIEL", 150⟩]⟩ }

/-- C8 counterexample: the merge keys its username map with exact strings, so
an incoming username differing from a stored one only in letter case creates a
second entry — after the merge the game holds both "ARIEL" and "Ariel", which
agree up to case. -/
theorem merge_not_case_insensitive :
    (mergeGame c8Game c8Day "2024-01-02").scores.map ATEntry.username =
      ["ARIEL", "Ariel"] ∧
    "ARIEL".data.map Char.toLower = "Ariel".data.map Char.toLower := by
  constructor
  · decide
  · decide

/-- C8 (amended): the merge compares usernames with case-sensitive exact
string equality; after a merge-path merge each game's list holds at most one
entry per exact username (case variants remain separate entries). -/
theorem mergeGame_usernames_nodup (g : ATGame) (d : GameDay) (date : String) :
    (keysOf ATEntry.username (mergeGame g d date).scores).Nodup := by
  have hM1nd : (keysOf ATEntry.username
      (mergeScores g.scores d.highscores.scores d.today.scores date)).Nodup :=
    nodup_usernames_mergeScores g.scores d.highscores.scores d.today.scores date
  have hSnd : (keysOf ATEntry.username
      (sortByScoreDesc ATEntry.score
        (mergeScores g.scores d.highscores.scores d.today.scores date))).Nodup :=
    (List.Perm.nodup_iff
      (List.Perm.map ATEntry.username (sortByScoreDesc_perm ATEntry.score _))).mpr
      hM1nd
  have hscores : (mergeGame g d date).scores =
      reRank ((sortByScoreDesc ATEntry.score
        (mergeScores g.scores d.highscores.scores d.today.scores date)).take 50) :=
    rfl
  rw [hscores, reRank, keysOf_reRankFrom, keysOf, List.map_take]
  exact List.Pairwise.sublist (List.take_sublist 50 _) hSnd

/-! ## Claim C10 — frame property of the merge -/

/-- C10: an existing entry whose username occurs in neither the incoming
`highscores` nor `today` block is carried through the merge with its username,
score and `achievedOn` unchanged: either it reappears (only its rank possibly
reassigned), or the top-50 truncation dropped it — in which case the resulting
list is full (exactly 50 entries) and no longer mentions the username.  The
username-distinctness hypothesis is the data-model invariant of the persisted
record. -/
theorem mergeGame_frame (g : ATGame) (d : GameDay) (date : String)
    (e : ATEntry) (he : e ∈ g.scores)
    (hnd : (keysOf ATEntry.username g.scores).Nodup)
    (hno : ∀ c ∈ d.highscores.scores ++ d.today.scores,
      c.username ≠ e.username) :
    (∃ r, (⟨r, e.username, e.score, e.achievedOn⟩ : ATEntry) ∈
        (mergeGame g d date).scores) ∨
    ((mergeGame g d date).scores.length = 50 ∧
      ∀ e2 ∈ (mergeGame g d date).scores, e2.username ≠ e.username) := by
  have hbuild : buildMap ATEntry.username g.scores = g.scores :=
    buildMap_eq_self ATEntry.username hnd
  have heM1 : e ∈ mergeScores g.scores d.highscores.scores
      d.today.scores date := by
    rw [mergeScores, hbuild]
    exact mem_foldl_applyCandidate date _ _ e he hno
  have hM1nd : (keysOf ATEntry.username
      (mergeScores g.scores d.highscores.scores d.today.scores date)).Nodup :=
    nodup_usernames_mergeScores g.scores d.highscores.scores d.today.scores date
  have hSperm := sortByScoreDesc_perm ATEntry.score
    (mergeScores g.scores d.highscores.scores d.today.scores date)
  have hSnd : (keysOf ATEntry.username
      (sortByScoreDesc ATEntry.score
        (mergeScores g.scores d.highscores.scores d.today.scores date))).Nodup :=
    (List.Perm.nodup_iff (List.Perm.map ATEntry.username hSperm)).mpr hM1nd
  have heS : e ∈ sortByScoreDesc ATEntry.score
      (mergeScores g.scores d.highscores.scores d.today.scores date) :=
    hSperm.mem_iff.mpr heM1
  have hscores : (mergeGame g d date).scores =
      reRank ((sortByScoreDesc ATEntry.score
        (mergeScores g.scores d.highscores.scores d.today.scores date)).take 50) :=
    rfl
  rw [← List.take_append_drop 50 (sortByScoreDesc ATEntry.score
    (mergeScores g.scores d.highscores.scores d.today.scores date))] at heS
  rcases List.mem_append.mp heS with hin | hin
  · left
    rcases reRankFrom_mem_of_mem hin 1 with ⟨r, hr⟩
    refine ⟨r, ?_⟩
    have heta : ({ e with rank := r } : ATEntry) =
        ⟨r, e.username, e.score, e.achievedOn⟩ := rfl
    rw [hscores, reRank, ← heta]
    exact hr
  · right
    have hdne : (sortByScoreDesc ATEntry.score
        (mergeScores g.scores d.highscores.scores d.today.scores date)).drop 50
        ≠ [] := by
      intro hempty
      rw [hempty] at hin
      cases hin
    have hlen : 50 < (sortByScoreDesc ATEntry.score
        (mergeScores g.scores d.highscores.scores d.today.scores date)).length := by
      by_contra hle
      exact hdne (List.drop_eq_nil_iff.mpr (le_of_not_lt hle))
    constructor
    · rw [hscores, reRank, length_reRankFrom, List.length_take]
      omega
    · intro e2 he2 hcontra
      rw [hscores, reRank] at he2
      rcases mem_reRankFrom he2 with ⟨k1, hk1, hu1, _, _⟩
      have hSsplit := hSnd
      rw [← List.take_append_drop 50 (sortByScoreDesc ATEntry.score
          (mergeScores g.scores d.highscores.scores d.today.scores date)),
        keysOf_append, List.nodup_append] at hSsplit
      have hkt : e2.username ∈ keysOf ATEntry.username
          ((sortByScoreDesc ATEntry.score (mergeScores g.scores
            d.highscores.scores d.today.scores date)).take 50) := by
        rw [hu1]
        exact List.mem_map.mpr ⟨k1, hk1, rfl⟩
      have hkd : e2.username ∈ keysOf ATEntry.username
          ((sortByScoreDesc ATEntry.score (mergeScores g.scores
            d.highscores.scores d.today.scores date)).drop 50) := by
        rw [hcontra]
        exact List.mem_map.mpr ⟨e, hin, rfl⟩
      exact hSsplit.2.2 hkt hkd

theorem mergeGame_frame_witness :
    ((⟨1, "Carol", 120, "2023-12-31"⟩ : ATEntry) ∈ c1Game.scores) ∧
    ((keysOf ATEntry.username c1Game.scores).Nodup) ∧
    ((∀ c ∈ c1Day.highscores.scores ++ c1Day.today.scores,
      c.username ≠ (⟨1, "Carol", 120, "2023-12-31"⟩ : ATEntry).username)) ∧
    ((∃ r, (⟨r, "Carol", 120, "2023-12-31"⟩ : ATEntry) ∈
        (mergeGame c1Game c1Day "2024-01-02").scores) ∨
    ((mergeGame c1Game c1Day "2024-01-02").scores.length = 50 ∧
      ∀ e2 ∈ (mergeGame c1Game c1Day "2024-01-02").scores,
        e2.username ≠ (⟨1, "Carol", 120, "2023-12-31"⟩ : ATEntry).username)) :=
  ⟨by decide, by decide, by decide,
    mergeGame_frame c1Game c1Day "2024-01-02" ⟨1, "Carol", 120, "2023-12-31"⟩
      (by decide) (by decide) (by decide)⟩

/-! ## Claim C4 — malformed persisted record -/

theorem mergeAllGames_lookup_seed (date : String) :
    ∀ (incoming : List (String × GameDay)) (gs : List (String × ATGame))
    (k : String) (dgame : GameDay),
    (incoming.map Prod.fst).Nodup → (k, dgame) ∈ incoming →
    getByKey Prod.fst gs k = none →
    getByKey Prod.fst (mergeAllGames gs incoming date) k =
      some (k, seedGame dgame date) := by
  intro incoming
  induction incoming with
  | nil => intro gs k dgame _ hmem; cases hmem
  | cons kv rest ih =>
    intro gs k dgame hnd hmem hg
    have hnd2 : (rest.map Prod.fst).Nodup := (List.nodup_cons.mp hnd).2
    have hknotrest : kv.1 ∉ rest.map Prod.fst := (List.nodup_cons.mp hnd).1
    rw [mergeAllGames, List.foldl_cons]
    rcases List.mem_cons.mp hmem with heq | hmem2
    · have hk1 : kv.1 = k := by rw [← heq]
      have hd : kv.2 = dgame := by rw [← heq]
      rw [hk1] at hknotrest
      have hx : getByKey Prod.fst gs kv.1 = none := by rw [hk1]; exact hg
      rw [mergeGameStep_of_none hx]
      have hframe : ∀ kv2 ∈ rest, kv2.1 ≠ k := by
        intro kv2 hkv2 hh
        exact hknotrest (hh ▸ List.mem_map.mpr ⟨kv2, hkv2, rfl⟩)
      have := mergeAllGames_lookup_frame date rest
        (setByKey Prod.fst (kv.1, seedGame kv.2 date) gs) k hframe
      rw [mergeAllGames] at this
      rw [this, hk1, hd]
      exact getByKey_setByKey_self Prod.fst (v := (k, seedGame dgame date))
        (l := gs)
    · have hkne : k ≠ kv.1 := by
        intro hh
        exact hknotrest (hh ▸ List.mem_map.mpr ⟨(k, dgame), hmem2, rfl⟩)
      cases hx : getByKey Prod.fst gs kv.1 with
      | none =>
        rw [mergeGameStep_of_none hx]
        refine ih _ k dgame hnd2 hmem2 ?_
        rw [getByKey_setByKey_ne Prod.fst (v := (kv.1, seedGame kv.2 date)) hkne]
        exact hg
      | some g =>
        rw [mergeGameStep_of_some hx]
        refine ih _ k dgame hnd2 hmem2 ?_
        rw [getByKey_setByKey_ne Prod.fst
          (v := (kv.1, mergeGame g.2 kv.2 date)) hkne]
        exact hg

/-- C4 counterexample: a persisted record that parses but has no `games`
mapping does not cold-start — the first iteration of the game loop throws
(`allTime.games[gameId]` on `undefined`), which `main` turns into a fatal
scrape failure. -/
theorem updateAllTimeScores_missing_games_is_fatal :
    updateAllTimeScores (PersistedAllTime.parsed "2024-01-01" none)
      [("castle-fireworks", c1Day)] "2024-01-02" = Except.error () := by
  rfl

/-- C4 (amended): only a record that is absent or fails to parse is treated as
absent — the run then cold-starts, seeding every incoming game from its
`highscores` block and succeeding; a record that parses with the `games`
mapping missing instead makes the merge throw, which is fatal to the
ingestion run whenever the incoming day has at least one game. -/
theorem updateAllTimeScores_malformed (incoming : List (String × GameDay))
    (date lu : String) (hnd : (incoming.map Prod.fst).Nodup) :
    (updateAllTimeScores PersistedAllTime.readError incoming date =
      Except.ok (date, some (mergeAllGames [] incoming date))) ∧
    (∀ kv ∈ incoming, getByKey Prod.fst (mergeAllGames [] incoming date) kv.1 =
      some (kv.1, seedGame kv.2 date)) ∧
    (incoming ≠ [] →
      updateAllTimeScores (PersistedAllTime.parsed lu none) incoming date =
        Except.error ()) := by
  refine ⟨rfl, ?_, ?_⟩
  · intro kv hkv
    have hkv2 : (kv.1, kv.2) ∈ incoming := by
      rw [Prod.mk.eta]
      exact hkv
    exact mergeAllGames_lookup_seed date incoming [] kv.1 kv.2 hnd hkv2 rfl
  · intro h
    rw [updateAllTimeScores, if_neg]
    intro hemp
    exact h (List.isEmpty_iff.mp hemp)

theorem updateAllTimeScores_malformed_witness :
    (([("castle-fireworks", c1Day)].map Prod.fst).Nodup) ∧
    ((updateAllTimeScores PersistedAllTime.readError
        [("castle-fireworks", c1Day)] "2024-01-02" =
      Except.ok ("2024-01-02",
        some (mergeAllGames [] [("castle-fireworks", c1Day)] "2024-01-02"))) ∧
    (∀ kv ∈ [("castle-fireworks", c1Day)],
      getByKey Prod.fst (mergeAllGames [] [("castle-fireworks", c1Day)]
        "2024-01-02") kv.1 = some (kv.1, seedGame kv.2 "2024-01-02")) ∧
    ([("castle-fireworks", c1Day)] ≠ ([] : List (String × GameDay)) →
      updateAllTimeScores (PersistedAllTime.parsed "2024-01-01" none)
        [("castle-fireworks", c1Day)] "2024-01-02" = Except.error ())) :=
  ⟨by decide,
    updateAllTimeScores_malformed [("castle-fireworks", c1Day)] "2024-01-02"
      "2024-01-01" (by decide)⟩

/-! ## Claim C9 — lastSeen / lastAppearance update rule -/

theorem charListLt_irrefl : ∀ l : List Char, charListLt l l = false := by
  intro l
  induction l with
  | nil => rfl
  | cons c cs ih =>
    rw [charListLt, if_neg (lt_irrefl c), if_neg (lt_irrefl c)]
    exact ih

/-- The stored rank exactly as the claim words it: the recorded
`lastAppearance.rank`, defaulting to 999 when `lastAppearance` is absent. -/
def claimStoredRank (la : Option Appearance) : Nat :=
  match la with
  | none => 999
  | some a => a.rank

theorem updateLastSeen_noneSeen (la : Option Appearance) (gameId : String)
    (rank : Nat) (date : String) :
    updateLastSeen ⟨none, la⟩ gameId rank date =
      ⟨some date, some ⟨gameId, rank, date⟩⟩ := rfl

theorem updateLastSeen_someSeen (la : Option Appearance) (d0 gameId : String)
    (rank : Nat) (date : String) :
    updateLastSeen ⟨some d0, la⟩ gameId rank date =
      if jsStrLt d0 date = true then ⟨some date, some ⟨gameId, rank, date⟩⟩
      else if date = d0 ∧ rank < storedAppearanceRank la then
        ⟨some d0, some ⟨gameId, rank, date⟩⟩
      else ⟨some d0, la⟩ := rfl

/-- C9: `lastSeen` and `lastAppearance` change together exactly when the
observation date is strictly newer than the stored `lastSeen` (an absent
`lastSeen` counts as older than everything), or the date is equal and the
observed rank is strictly lower than the stored `lastAppearance` rank
(999 when absent); otherwise both fields are unchanged.  The hypothesis that
a stored rank is nonzero holds for every state the script writes (ranks are
`entry.rank || idx + 1`, at least 1) and separates the claim's 999 default
from the JS falsiness of a zero rank. -/
theorem updateLastSeen_spec (u : UserSeen) (gameId : String) (rank : Nat)
    (date : String)
    (hr : ∀ a, u.lastAppearance = some a → a.rank ≠ 0) :
    (((∀ d0, u.lastSeen = some d0 → jsStrLt d0 date = true) ∨
      (u.lastSeen = some date ∧ rank < claimStoredRank u.lastAppearance)) →
      updateLastSeen u gameId rank date =
        ⟨some date, some ⟨gameId, rank, date⟩⟩) ∧
    (¬ ((∀ d0, u.lastSeen = some d0 → jsStrLt d0 date = true) ∨
      (u.lastSeen = some date ∧ rank < claimStoredRank u.lastAppearance)) →
      updateLastSeen u gameId rank date = u) := by
  cases u with
  | mk ls la =>
    have hsr : storedAppearanceRank la = claimStoredRank la := by
      cases hla : la with
      | none => rfl
      | some a =>
        have ha := hr a (by rw [hla])
        rw [storedAppearanceRank, claimStoredRank, if_neg ha]
    constructor
    · intro hcond
      cases ls with
      | none => rfl
      | some d0 =>
        rcases hcond with h1 | ⟨heq, hrank⟩
        · have hlt := h1 d0 rfl
          rw [updateLastSeen_someSeen, if_pos hlt]
        · have hd0 : d0 = date := by simpa using heq
          subst hd0
          have hlt : jsStrLt d0 d0 = false := charListLt_irrefl _
          rw [updateLastSeen_someSeen,
            if_neg (by rw [hlt]; exact Bool.false_ne_true),
            if_pos ⟨rfl, by rw [hsr]; exact hrank⟩]
    · intro hncond
      cases ls with
      | none =>
        exact absurd (Or.inl (fun d0 hd0 => by cases hd0)) hncond
      | some d0 =>
        have hltf : ¬ (jsStrLt d0 date = true) := by
          intro hlt
          exact hncond (Or.inl (fun d1 hd1 => by
            injection hd1 with h2
            rw [← h2]
            exact hlt))
        have hrankf : ¬ (date = d0 ∧ rank < storedAppearanceRank la) := by
          rintro ⟨hdd, hrk⟩
          subst hdd
          exact hncond (Or.inr ⟨rfl, by rw [← hsr]; exact hrk⟩)
        rw [updateLastSeen_someSeen, if_neg hltf, if_neg hrankf]

theorem updateLastSeen_spec_witness :
    ((∀ a, (UserSeen.mk (some "2024-01-02")
        (some ⟨"pirates", 3, "2024-01-02"⟩)).lastAppearance = some a →
      a.rank ≠ 0)) ∧
    ((((∀ d0, (UserSeen.mk (some "2024-01-02")
          (some ⟨"pirates", 3, "2024-01-02"⟩)).lastSeen = some d0 →
        jsStrLt d0 "2024-01-02" = true) ∨
      ((UserSeen.mk (some "2024-01-02")
          (some ⟨"pirates", 3, "2024-01-02"⟩)).lastSeen = some "2024-01-02" ∧
        2 < claimStoredRank (UserSeen.mk (some "2024-01-02")
          (some ⟨"pirates", 3, "2024-01-02"⟩)).lastAppearance)) →
      updateLastSeen (UserSeen.mk (some "2024-01-02")
          (some ⟨"pirates", 3, "2024-01-02"⟩)) "haunted-mansion" 2 "2024-01-02" =
        ⟨some "2024-01-02", some ⟨"haunted-mansion", 2, "2024-01-02"⟩⟩) ∧
    (¬ ((∀ d0, (UserSeen.mk (some "2024-01-02")
          (some ⟨"pirates", 3, "2024-01-02"⟩)).lastSeen = some d0 →
        jsStrLt d0 "2024-01-02" = true) ∨
      ((UserSeen.mk (some "2024-01-02")
          (some ⟨"pirates", 3, "2024-01-02"⟩)).lastSeen = some "2024-01-02" ∧
        2 < claimStoredRank (UserSeen.mk (some "2024-01-02")
          (some ⟨"pirates", 3, "2024-01-02"⟩)).lastAppearance)) →
      updateLastSeen (UserSeen.mk (some "2024-01-02")
          (some ⟨"pirates", 3, "2024-01-02"⟩)) "haunted-mansion" 2 "2024-01-02" =
        UserSeen.mk (some "2024-01-02") (some ⟨"pirates", 3, "2024-01-02"⟩))) :=
  ⟨by decide,
    updateLastSeen_spec (UserSeen.mk (some "2024-01-02")
        (some ⟨"pirates", 3, "2024-01-02"⟩)) "haunted-mansion" 2 "2024-01-02"
      (by decide)⟩

/-! ## Claim C7 — avatar provenance resolution -/

/-- The scan order stated by the claim: snapshots in the supplied order, each
paired with every period of the priority list for the given flag. -/
def scanBlocks (days : List Snapshot) (ph : Bool) : List (Snapshot × Period) :=
  days.flatMap (fun day => (periodsFor ph).map (fun p => (day, p)))

/-- The claim's match condition: the block's rank-1 (first) entry exists and
its username equals the queried one, by case-sensitive exact string
equality. -/
def rankOneMatches (day : Snapshot) (gameId : String) (p : Period)
    (u : String) : Bool :=
  match getByKey Prod.fst day.games gameId with
  | none => false
  | some kv => decide (blockHeadUser kv.2 p = some u)

/-- The `topAvatar` of one period block of one snapshot. -/
def topAvatarOf (day : Snapshot) (gameId : String) (p : Period) :
    Option String :=
  match getByKey Prod.fst day.games gameId with
  | none => none
  | some kv => (kv.2.block p).bind PeriodBlock.topAvatar

/-- The resolver as the claim words it: the `topAvatar` of the first
snapshot/period pair in scan order whose rank-1 entry matches; absent when no
pair matches. -/
def findAvatarSpec (days : List Snapshot) (gameId u : String) (ph : Bool) :
    Option String :=
  match (scanBlocks days ph).find?
      (fun sp => rankOneMatches sp.1 gameId sp.2 u) with
  | some sp => topAvatarOf sp.1 gameId sp.2
  | none => none

theorem rankOneMatches_of_none {day : Snapshot} {gameId : String}
    {p : Period} {u : String}
    (h : getByKey Prod.fst day.games gameId = none) :
    rankOneMatches day gameId p u = false := by
  rw [rankOneMatches, h]

theorem rankOneMatches_of_some {day : Snapshot} {gameId : String}
    {p : Period} {u : String} {kv : String × GameSnap}
    (h : getByKey Prod.fst day.games gameId = some kv) :
    rankOneMatches day gameId p u = decide (blockHeadUser kv.2 p = some u) := by
  rw [rankOneMatches, h]

theorem findInPeriods_eq_find? {day : Snapshot} {gameId : String}
    {u : String} {kv : String × GameSnap}
    (h : getByKey Prod.fst day.games gameId = some kv) :
    ∀ ps : List Period, findInPeriods kv.2 u ps =
      (ps.find? (fun p => rankOneMatches day gameId p u)).map
        (fun p => (kv.2.block p).bind PeriodBlock.topAvatar) := by
  intro ps
  induction ps with
  | nil => rfl
  | cons p ps ih =>
    by_cases hm : blockHeadUser kv.2 p = some u
    · rw [findInPeriods, if_pos hm,
        List.find?_cons_of_pos _ (by rw [rankOneMatches_of_some h]; simp [hm])]
      rfl
    · rw [findInPeriods, if_neg hm,
        List.find?_cons_of_neg _ (by rw [rankOneMatches_of_some h]; simp [hm]),
        ih]

theorem findAvatarForUser_cons_none {day : Snapshot} {rest : List Snapshot}
    {gameId u : String} {ph : Bool}
    (h : getByKey Prod.fst day.games gameId = none) :
    findAvatarForUser (day :: rest) gameId u ph =
      findAvatarForUser rest gameId u ph := by
  rw [findAvatarForUser, h]

theorem findAvatarForUser_cons_some {day : Snapshot} {rest : List Snapshot}
    {gameId u : String} {ph : Bool} {kv : String × GameSnap}
    (h : getByKey Prod.fst day.games gameId = some kv) :
    findAvatarForUser (day :: rest) gameId u ph =
      match findInPeriods kv.2 u (periodsFor ph) with
      | some av => av
      | none => findAvatarForUser rest gameId u ph := by
  rw [findAvatarForUser, h]

/-- C7: `findAvatarForUser` scans the snapshots in the supplied order with the
period priority `[highscores, yesterday, today]` when `prioritizeHighscores`
and `[yesterday, today, highscores]` otherwise, and returns the `topAvatar`
of the first period block whose first (rank-1) entry's username is exactly the
queried string, absent when nothing matches — it equals the claim's
declarative scan. -/
theorem findAvatarForUser_eq_spec (days : List Snapshot) (gameId u : String)
    (ph : Bool) :
    findAvatarForUser days gameId u ph = findAvatarSpec days gameId u ph := by
  induction days with
  | nil => rfl
  | cons day rest ih =>
    rw [findAvatarSpec, scanBlocks, List.flatMap_cons, List.find?_append]
    cases hkv : getByKey Prod.fst day.games gameId with
    | none =>
      have hnone : List.find? (fun sp => rankOneMatches sp.1 gameId sp.2 u)
          ((periodsFor ph).map (fun p => (day, p))) = none := by
        rw [List.find?_eq_none]
        intro sp hsp
        rcases List.mem_map.mp hsp with ⟨p, _, rfl⟩
        rw [rankOneMatches_of_none hkv]
        exact Bool.false_ne_true
      rw [findAvatarForUser_cons_none hkv, hnone, Option.none_or, ih,
        findAvatarSpec, scanBlocks]
    | some kv =>
      have hmapfind : List.find? (fun sp => rankOneMatches sp.1 gameId sp.2 u)
          ((periodsFor ph).map (fun p => (day, p))) =
          ((periodsFor ph).find?
            (fun p => rankOneMatches day gameId p u)).map (fun p => (day, p)) := by
        rw [List.find?_map]
        rfl
      rw [findAvatarForUser_cons_some hkv, findInPeriods_eq_find? hkv, hmapfind]
      cases hf : (periodsFor ph).find? (fun p => rankOneMatches day gameId p u) with
      | none =>
        rw [Option.map_none', Option.map_none', Option.none_or, ih,
          findAvatarSpec, scanBlocks]
      | some p =>
        rw [Option.map_some', Option.map_some']
        show (kv.2.block p).bind PeriodBlock.topAvatar = topAvatarOf day gameId p
        rw [topAvatarOf, hkv]

/-! ## Claim C6 — month query date range -/

theorem charListLt_append (P a b : List Char) :
    charListLt (P ++ a) (P ++ b) = charListLt a b := by
  induction P with
  | nil => rfl
  | cons c cs ih =>
    rw [List.cons_append, List.cons_append, charListLt,
      if_neg (lt_irrefl c), if_neg (lt_irrefl c)]
    exact ih

theorem padDay_lt_iff : ∀ d, d < 32 → ∀ r, r < 32 →
    ((charListLt (padDay d).data (padDay r).data = true) ↔ d < r) := by
  decide

theorem jsStrLe_dateStr (y m : String) {d r : Nat} (hd : d ≤ 31)
    (hr : r ≤ 31) :
    (jsStrLe (dateStrYMD y m d) (dateStrYMD y m r) = true) ↔ d ≤ r := by
  have hdata : ∀ k : Nat, (dateStrYMD y m k).data =
      (((y.data ++ "-".data) ++ m.data) ++ "-".data) ++ (padDay k).data :=
    fun k => rfl
  rw [jsStrLe, jsStrLt, hdata, hdata, charListLt_append]
  cases hx : charListLt (padDay r).data (padDay d).data with
  | false =>
    have hnlt : ¬ (r < d) := by
      intro hlt
      rw [(padDay_lt_iff r (by omega) d (by omega)).mpr hlt] at hx
      cases hx
    simp only [Bool.not_false]
    exact ⟨fun _ => by omega, fun _ => trivial⟩
  | true =>
    have hlt : r < d := (padDay_lt_iff r (by omega) d (by omega)).mp hx
    simp only [Bool.not_true]
    constructor
    · intro hfalse
      cases hfalse
    · intro hle
      omega

/-- C6 (amended): the month range runs from the 1st of the reference month
through the reference date INCLUSIVE — the `dateStr <= pacificNow` filter
keeps the reference date itself; the month query then aggregates exactly the
existing snapshots of those days (missing days skipped). -/
theorem getCurrentMonthDates_inclusive (y m : String)
    (refDay daysInMonth : Nat) (h1 : refDay ≤ 31) (h2 : daysInMonth ≤ 31) :
    getCurrentMonthDates y m refDay daysInMonth =
      (((List.range daysInMonth).map (fun d => d + 1)).filter
        (fun d => decide (d ≤ refDay))).map (dateStrYMD y m) := by
  rw [getCurrentMonthDates]
  congr 1
  apply List.filter_congr
  intro d hd
  have hdle : d ≤ 31 := by
    rcases List.mem_map.mp hd with ⟨d0, hd0, rfl⟩
    have := List.mem_range.mp hd0
    omega
  rcases hx : jsStrLe (dateStrYMD y m d) (dateStrYMD y m refDay) with _ | _
  · have : ¬ (d ≤ refDay) := fun hle =>
      by rw [(jsStrLe_dateStr y m hdle h1).mpr hle] at hx; cases hx
    rw [decide_eq_false this]
  · have := (jsStrLe_dateStr y m hdle h1).mp hx
    rw [decide_eq_true this]

theorem getCurrentMonthDates_inclusive_witness :
    (5 ≤ 31) ∧ (31 ≤ 31) ∧
    getCurrentMonthDates "2024" "03" 5 31 =
      (((List.range 31).map (fun d => d + 1)).filter
        (fun d => decide (d ≤ 5))).map (dateStrYMD "2024" "03") :=
  ⟨by decide, by decide,
    getCurrentMonthDates_inclusive "2024" "03" 5 31 (by decide) (by decide)⟩

/-- The only snapshot in the store for the C6 counterexample lies on the
reference date itself. -/
def c6Snap : Snapshot :=
  ⟨"2024-03-05", [("jungle-cruise",
    ⟨none, some ⟨some "a.png", [⟨1, "Ariel", 100⟩]⟩, none⟩)]⟩

/-- The snapshot store of the C6 counterexample. -/
def c6Store : String → Option Snapshot :=
  fun d => if d = "2024-03-05" then some c6Snap else none

/-- C6 counterexample: with the reference date 2024-03-05 and a store whose
only snapshot is the 2024-03-05 file, the month query still returns data —
the range includes the reference date, while the claim says it stops at
referenceDate − 1 (under the claim the query would have found no snapshot at
all and returned no data). -/
theorem monthScores_includes_reference_date :
    monthScores c6Store "2024" "03" 5 31 "jungle-cruise" =
      some ([⟨1, "Ariel", 100⟩], some "a.png") := by
  decide

/-! ## Claim C5 — multi-day aggregation -/

/-- The (score, date) observations of one user contributed by one day: the
entries of the day's selected score source carrying the queried username, each
paired with the day's date. -/
def dayObs (gameId : String) (p : Period) (u : String) (day : Snapshot) :
    List (Nat × String) :=
  match getByKey Prod.fst day.games gameId with
  | none => []
  | some kv => (sourceScores kv.2 p).filterMap
      (fun e => if e.username = u then some (e.score, day.date) else none)

/-- All (score, date) observations of one user across the supplied days, in
processing order. -/
def userObs (days : List Snapshot) (gameId : String) (p : Period)
    (u : String) : List (Nat × String) :=
  days.flatMap (dayObs gameId p u)

/-- The per-user scalar content of the `aggregateScores` fold: a stored best
is replaced only by a strictly greater score. -/
def bestStep (st : Option (Nat × String)) (q : Nat × String) :
    Option (Nat × String) :=
  match st with
  | none => some q
  | some q0 => if q0.1 < q.1 then some q else some q0

/-- Folding the scalar best over a list of observations. -/
def bestFold (obs : List (Nat × String)) (st : Option (Nat × String)) :
    Option (Nat × String) :=
  obs.foldl bestStep st

/-- The maximum observed score (0 for no observations). -/
def maxScoreObs (obs : List (Nat × String)) : Nat :=
  obs.foldr (fun q n => max q.1 n) 0

theorem dayObs_of_none {gameId : String} {p : Period} {u : String}
    {day : Snapshot} (h : getByKey Prod.fst day.games gameId = none) :
    dayObs gameId p u day = [] := by
  rw [dayObs, h]

theorem dayObs_of_some {gameId : String} {p : Period} {u : String}
    {day : Snapshot} {kv : String × GameSnap}
    (h : getByKey Prod.fst day.games gameId = some kv) :
    dayObs gameId p u day = (sourceScores kv.2 p).filterMap
      (fun e => if e.username = u then some (e.score, day.date) else none) := by
  rw [dayObs, h]

theorem maxScoreObs_cons (q : Nat × String) (rest : List (Nat × String)) :
    maxScoreObs (q :: rest) = max q.1 (maxScoreObs rest) := rfl

theorem bestFold_le : ∀ (obs : List (Nat × String)) (s : Nat) (d : String),
    maxScoreObs obs ≤ s → bestFold obs (some (s, d)) = some (s, d) := by
  intro obs
  induction obs with
  | nil => intro s d _; rfl
  | cons q rest ih =>
    intro s d h
    rw [maxScoreObs_cons] at h
    have hq : ¬ (s < q.1) := by omega
    rw [bestFold, List.foldl_cons]
    have hstep : bestStep (some (s, d)) q = some (s, d) := by
      rw [bestStep, if_neg hq]
    rw [hstep]
    exact ih s d (by omega)

theorem bestFold_gt : ∀ (obs : List (Nat × String)) (s : Nat) (d : String),
    s < maxScoreObs obs →
    ∃ q, obs.find? (fun q2 => decide (q2.1 = maxScoreObs obs)) = some q ∧
      bestFold obs (some (s, d)) = some (maxScoreObs obs, q.2) := by
  intro obs
  induction obs with
  | nil =>
    intro s d h
    have h0 : maxScoreObs ([] : List (Nat × String)) = 0 := rfl
    rw [h0] at h
    omega
  | cons q rest ih =>
    intro s d h
    rw [maxScoreObs_cons] at h
    by_cases hq : maxScoreObs rest ≤ q.1
    · have hM : max q.1 (maxScoreObs rest) = q.1 := max_eq_left hq
      have hs : s < q.1 := by omega
      refine ⟨q, ?_, ?_⟩
      · rw [List.find?_cons_of_pos _ (by
          rw [maxScoreObs_cons, hM]
          simp)]
      · rw [bestFold, List.foldl_cons]
        have hstep : bestStep (some (s, d)) q = some (q.1, q.2) := by
          rw [bestStep, if_pos hs]
        rw [hstep, maxScoreObs_cons, hM]
        exact bestFold_le rest q.1 q.2 hq
    · have hlt : q.1 < maxScoreObs rest := by omega
      have hM : max q.1 (maxScoreObs rest) = maxScoreObs rest :=
        max_eq_right (by omega)
      rw [maxScoreObs_cons, hM]
      have hfind : ¬ ((fun q2 : Nat × String =>
          decide (q2.1 = maxScoreObs rest)) q = true) := by
        simp
        omega
      by_cases hs : s < q.1
      · rcases ih q.1 q.2 hlt with ⟨q2, hf2, hfold2⟩
        refine ⟨q2, ?_, ?_⟩
        · rw [List.find?_cons_of_neg
            (p := fun q2 : Nat × String => decide (q2.1 = maxScoreObs rest))
            _ hfind]
          exact hf2
        · rw [bestFold, List.foldl_cons]
          have hstep : bestStep (some (s, d)) q = some (q.1, q.2) := by
            rw [bestStep, if_pos hs]
          rw [hstep]
          exact hfold2
      · rcases ih s d (by omega) with ⟨q2, hf2, hfold2⟩
        refine ⟨q2, ?_, ?_⟩
        · rw [List.find?_cons_of_neg
            (p := fun q2 : Nat × String => decide (q2.1 = maxScoreObs rest))
            _ hfind]
          exact hf2
        · rw [bestFold, List.foldl_cons]
          have hstep : bestStep (some (s, d)) q = some (s, d) := by
            rw [bestStep, if_neg hs]
          rw [hstep]
          exact hfold2

theorem bestFold_none (obs : List (Nat × String)) (h : obs ≠ []) :
    ∃ q, obs.find? (fun q2 => decide (q2.1 = maxScoreObs obs)) = some q ∧
      bestFold obs none = some (maxScoreObs obs, q.2) := by
  cases obs with
  | nil => exact absurd rfl h
  | cons q rest =>
    have hstep : bestFold (q :: rest) none = bestFold rest (some q) := rfl
    by_cases hq : maxScoreObs rest ≤ q.1
    · have hM : maxScoreObs (q :: rest) = q.1 := by
        rw [maxScoreObs_cons]
        exact max_eq_left hq
      refine ⟨q, ?_, ?_⟩
      · rw [List.find?_cons_of_pos _ (by rw [hM]; simp)]
      · rw [hstep, hM]
        have : (q.1, q.2) = q := rfl
        rw [← this]
        exact bestFold_le rest q.1 q.2 hq
    · have hlt : q.1 < maxScoreObs rest := by omega
      have hM : maxScoreObs (q :: rest) = maxScoreObs rest := by
        rw [maxScoreObs_cons]
        exact max_eq_right (by omega)
      rcases bestFold_gt rest q.1 q.2 hlt with ⟨q2, hf2, hfold2⟩
      refine ⟨q2, ?_, ?_⟩
      · rw [List.find?_cons_of_neg _ (by rw [hM]; simp; omega), hM]
        exact hf2
      · rw [hstep, hM]
        have : (q.1, q.2) = q := rfl
        rw [← this]
        exact hfold2

theorem aggStep_of_none {date : String} {m : List AggEntry} {e : ScoreEntry}
    (h : getByKey AggEntry.username m e.username = none) :
    aggStep date m e =
      setByKey AggEntry.username ⟨e.username, e.score, date⟩ m := by
  rw [aggStep, h]

theorem aggStep_of_lt {date : String} {m : List AggEntry} {e : ScoreEntry}
    {ex : AggEntry} (h : getByKey AggEntry.username m e.username = some ex)
    (hlt : ex.score < e.score) :
    aggStep date m e =
      setByKey AggEntry.username ⟨e.username, e.score, date⟩ m := by
  rw [aggStep, h]
  exact if_pos hlt

theorem aggStep_of_ge {date : String} {m : List AggEntry} {e : ScoreEntry}
    {ex : AggEntry} (h : getByKey AggEntry.username m e.username = some ex)
    (hge : ¬ ex.score < e.score) :
    aggStep date m e = m := by
  rw [aggStep, h]
  exact if_neg hge

theorem aggStep_lookup_other {date : String} {m : List AggEntry}
    {e : ScoreEntry} {u : String} (hne : e.username ≠ u) :
    getByKey AggEntry.username (aggStep date m e) u =
      getByKey AggEntry.username m u := by
  have hkey : u ≠ (⟨e.username, e.score, date⟩ : AggEntry).username :=
    fun hh => hne hh.symm
  cases hx : getByKey AggEntry.username m e.username with
  | none =>
    rw [aggStep_of_none hx, getByKey_setByKey_ne AggEntry.username hkey]
  | some ex =>
    by_cases hlt : ex.score < e.score
    · rw [aggStep_of_lt hx hlt, getByKey_setByKey_ne AggEntry.username hkey]
    · rw [aggStep_of_ge hx hlt]

theorem aggStep_lookup_self {date : String} {m : List AggEntry}
    {e : ScoreEntry} {u : String} {st : Option (Nat × String)}
    (heq : e.username = u)
    (h : getByKey AggEntry.username m u =
      Option.map (fun q : Nat × String => (⟨u, q.1, q.2⟩ : AggEntry)) st) :
    getByKey AggEntry.username (aggStep date m e) u =
      Option.map (fun q : Nat × String => (⟨u, q.1, q.2⟩ : AggEntry))
        (bestStep st (e.score, date)) := by
  subst heq
  cases st with
  | none =>
    rw [Option.map_none'] at h
    rw [aggStep_of_none h]
    have hself := getByKey_setByKey_self AggEntry.username
      (v := (⟨e.username, e.score, date⟩ : AggEntry)) (l := m)
    rw [hself]
    rfl
  | some q0 =>
    rw [Option.map_some'] at h
    by_cases hlt : q0.1 < e.score
    · rw [aggStep_of_lt h (by exact hlt)]
      have hself := getByKey_setByKey_self AggEntry.username
        (v := (⟨e.username, e.score, date⟩ : AggEntry)) (l := m)
      rw [hself, bestStep, if_pos hlt, Option.map_some']
    · rw [aggStep_of_ge h (by exact hlt), h, bestStep, if_neg hlt,
        Option.map_some']

theorem aggStep_foldl_entries (date : String) (u : String) :
    ∀ (es : List ScoreEntry) (m : List AggEntry) (st : Option (Nat × String)),
    getByKey AggEntry.username m u =
      Option.map (fun q : Nat × String => (⟨u, q.1, q.2⟩ : AggEntry)) st →
    getByKey AggEntry.username (es.foldl (aggStep date) m) u =
      Option.map (fun q : Nat × String => (⟨u, q.1, q.2⟩ : AggEntry))
        (bestFold (es.filterMap
          (fun e => if e.username = u then some (e.score, date) else none)) st) := by
  intro es
  induction es with
  | nil => intro m st h; exact h
  | cons e rest ih =>
    intro m st h
    rw [List.foldl_cons]
    by_cases heq : e.username = u
    · have hfm : (e :: rest).filterMap
          (fun e2 => if e2.username = u then some (e2.score, date) else none) =
          (e.score, date) :: rest.filterMap
            (fun e2 => if e2.username = u then some (e2.score, date) else none) := by
        rw [List.filterMap_cons, if_pos heq]
      rw [hfm, bestFold, List.foldl_cons]
      exact ih _ _ (aggStep_lookup_self heq h)
    · have hfm : (e :: rest).filterMap
          (fun e2 => if e2.username = u then some (e2.score, date) else none) =
          rest.filterMap
            (fun e2 => if e2.username = u then some (e2.score, date) else none) := by
        rw [List.filterMap_cons, if_neg heq]
      rw [hfm]
      refine ih _ _ ?_
      rw [aggStep_lookup_other heq]
      exact h

theorem aggBest_foldl_days (gameId : String) (p : Period) (u : String) :
    ∀ (days : List Snapshot) (m : List AggEntry) (st : Option (Nat × String)),
    getByKey AggEntry.username m u =
      Option.map (fun q : Nat × String => (⟨u, q.1, q.2⟩ : AggEntry)) st →
    getByKey AggEntry.username (days.foldl (aggDayStep gameId p) m) u =
      Option.map (fun q : Nat × String => (⟨u, q.1, q.2⟩ : AggEntry))
        (bestFold (userObs days gameId p u) st) := by
  intro days
  induction days with
  | nil => intro m st h; exact h
  | cons day rest ih =>
    intro m st h
    rw [List.foldl_cons]
    have hobs : userObs (day :: rest) gameId p u =
        dayObs gameId p u day ++ userObs rest gameId p u := by
      rw [userObs, List.flatMap_cons, userObs]
    rw [hobs]
    have hbf : bestFold (dayObs gameId p u day ++ userObs rest gameId p u) st =
        bestFold (userObs rest gameId p u) (bestFold (dayObs gameId p u day) st) := by
      rw [bestFold, List.foldl_append, bestFold, bestFold]
    rw [hbf]
    cases hkv : getByKey Prod.fst day.games gameId with
    | none =>
      have hstep : aggDayStep gameId p m day = m := by
        rw [aggDayStep, hkv]
      rw [hstep, dayObs_of_none hkv]
      exact ih _ _ h
    | some kv =>
      have hstep : aggDayStep gameId p m day =
          (sourceScores kv.2 p).foldl (aggStep day.date) m := by
        rw [aggDayStep, hkv]
      rw [hstep, dayObs_of_some hkv]
      exact ih _ _ (aggStep_foldl_entries day.date u _ _ _ h)

theorem length_rankify : ∀ (l : List AggEntry) (n : Nat),
    (rankify n l).length = l.length := by
  intro l
  induction l with
  | nil => intro n; rfl
  | cons a rest ih => intro n; simp [rankify, ih]

theorem map_rank_rankify : ∀ (l : List AggEntry) (n : Nat),
    (rankify n l).map ScoreEntry.rank = List.range' n l.length := by
  intro l
  induction l with
  | nil => intro n; rfl
  | cons a rest ih =>
    intro n
    rw [rankify, List.length_cons, List.range'_succ, List.map_cons, ih]

theorem map_score_rankify : ∀ (l : List AggEntry) (n : Nat),
    (rankify n l).map ScoreEntry.score = l.map AggEntry.score := by
  intro l
  induction l with
  | nil => intro n; rfl
  | cons a rest ih => intro n; simp [rankify, ih]

theorem mem_rankify {e : ScoreEntry} : ∀ {l : List AggEntry} {n : Nat},
    e ∈ rankify n l →
    ∃ a ∈ l, e.username = a.username ∧ e.score = a.score := by
  intro l
  induction l with
  | nil => intro n h; cases h
  | cons a rest ih =>
    intro n h
    rw [rankify] at h
    rcases List.mem_cons.mp h with rfl | h2
    · exact ⟨a, List.mem_cons_self _ _, rfl, rfl⟩
    · rcases ih h2 with ⟨a2, ha2, hu, hs⟩
      exact ⟨a2, List.mem_cons_of_mem _ ha2, hu, hs⟩

theorem sortedDesc_iff_map {α : Type} (sc : α → Nat) (l : List α) :
    SortedDesc sc l ↔ (l.map sc).Pairwise (fun a b => b ≤ a) := by
  rw [SortedDesc, List.pairwise_map]

/-- C5: for every username observed in the selected source blocks, the
aggregation map stores exactly that user's maximum observed score, dated with
the first day attaining it (strictly greater replaces, ties keep the earlier
date); the emitted per-game list is the top 10 of the per-user bests, sorted
non-increasingly with contiguous 1-based ranks, every emitted entry coming
from the bests map. -/
theorem aggregateScores_best_per_user (days : List Snapshot) (gameId : String)
    (p : Period) (u : String) (h : userObs days gameId p u ≠ []) :
    (∃ q, (userObs days gameId p u).find?
        (fun q2 => decide (q2.1 = maxScoreObs (userObs days gameId p u))) =
          some q ∧
      getByKey AggEntry.username (aggBest days gameId p) u =
        some ⟨u, maxScoreObs (userObs days gameId p u), q.2⟩) ∧
    (aggregateGame days gameId p).length ≤ 10 ∧
    SortedDesc ScoreEntry.score (aggregateGame days gameId p) ∧
    ((aggregateGame days gameId p).map ScoreEntry.rank =
      List.range' 1 (aggregateGame days gameId p).length) ∧
    (∀ e2 ∈ aggregateGame days gameId p, ∃ a ∈ aggBest days gameId p,
      e2.username = a.username ∧ e2.score = a.score) := by
  refine ⟨?_, ?_, ?_, ?_, ?_⟩
  · rcases bestFold_none (userObs days gameId p u) h with ⟨q, hfind, hfold⟩
    refine ⟨q, hfind, ?_⟩
    have hcomm := aggBest_foldl_days gameId p u days [] none rfl
    rw [aggBest, hcomm, hfold, Option.map_some']
  · rw [aggregateGame, length_rankify, List.length_take]
    exact min_le_left _ _
  · have hsorted : SortedDesc AggEntry.score
        ((sortByScoreDesc AggEntry.score (aggBest days gameId p)).take 10) :=
      List.Pairwise.sublist (List.take_sublist 10 _)
        (sortedDesc_sortByScoreDesc AggEntry.score _)
    rw [aggregateGame, sortedDesc_iff_map, map_score_rankify]
    exact (sortedDesc_iff_map AggEntry.score _).mp hsorted
  · rw [aggregateGame, map_rank_rankify, length_rankify]
  · intro e2 he2
    rw [aggregateGame] at he2
    rcases mem_rankify he2 with ⟨a, haTake, hu2, hs2⟩
    have haS : a ∈ sortByScoreDesc AggEntry.score (aggBest days gameId p) :=
      List.Sublist.mem haTake (List.take_sublist 10 _)
    exact ⟨a, (sortByScoreDesc_perm AggEntry.score _).mem_iff.mp haS, hu2, hs2⟩

/-- One snapshot of the Ariel scenario: the `yesterday` block of one game
holds a single entry for Ariel with the given score. -/
def c5Snap (d : String) (s : Nat) : Snapshot :=
  ⟨d, [("castle-fireworks", ⟨none, some ⟨none, [⟨1, "Ariel", s⟩]⟩, none⟩)]⟩

/-- Three successive days with Ariel scoring 100, 250, 180. -/
def c5Days : List Snapshot :=
  [c5Snap "2024-01-01" 100, c5Snap "2024-01-02" 250, c5Snap "2024-01-03" 180]

theorem aggregateScores_best_per_user_witness :
    (userObs c5Days "castle-fireworks" Period.yesterday "Ariel" ≠ []) ∧
    (getByKey AggEntry.username
        (aggBest c5Days "castle-fireworks" Period.yesterday) "Ariel" =
      some ⟨"Ariel", 250, "2024-01-02"⟩) ∧
    (aggregateGame c5Days "castle-fireworks" Period.yesterday =
      [⟨1, "Ariel", 250⟩]) ∧
    ((∃ q, (userObs c5Days "castle-fireworks" Period.yesterday "Ariel").find?
        (fun q2 => decide (q2.1 =
          maxScoreObs (userObs c5Days "castle-fireworks" Period.yesterday
            "Ariel"))) = some q ∧
      getByKey AggEntry.username
          (aggBest c5Days "castle-fireworks" Period.yesterday) "Ariel" =
        some ⟨"Ariel",
          maxScoreObs (userObs c5Days "castle-fireworks" Period.yesterday
            "Ariel"), q.2⟩) ∧
    (aggregateGame c5Days "castle-fireworks" Period.yesterday).length ≤ 10 ∧
    SortedDesc ScoreEntry.score
      (aggregateGame c5Days "castle-fireworks" Period.yesterday) ∧
    ((aggregateGame c5Days "castle-fireworks" Period.yesterday).map
        ScoreEntry.rank =
      List.range' 1
        (aggregateGame c5Days "castle-fireworks" Period.yesterday).length) ∧
    (∀ e2 ∈ aggregateGame c5Days "castle-fireworks" Period.yesterday,
      ∃ a ∈ aggBest c5Days "castle-fireworks" Period.yesterday,
        e2.username = a.username ∧ e2.score = a.score)) :=
  ⟨by decide, by decide, by decide,
    aggregateScores_best_per_user c5Days "castle-fireworks" Period.yesterday
      "Ariel" (by decide)⟩
